import Mathlib

/-! # Append-only record store (`internal/log/store.go`)

A shallow embedding of the `store` type of package `log` and of the standard
library pieces it is built from (`os.File`, `bufio.Writer`,
`encoding/binary`), followed by theorems about `newStore`, `Append`, `Read`,
`ReadAt` and `Close`.

Modelling conventions.

* A byte is a `Fin 256`; a Go `[]byte` is a `List Byte`.
* `uint64` values are natural numbers reduced modulo `2^64` wherever the Go
  code can wrap; `int64` offsets are integers obtained by `int64`.
* The mutex is not modelled: every operation is a function from the state
  before the call to the state after it, which is what the lock makes of each
  call.
* The file is an in-memory byte sequence with a handle on it. The handle has
  an offset and an open mode: `Write` writes at the offset of the handle, or
  at the end of the file when the handle was opened with `O_APPEND`, and
  replaces the bytes that are there. Positional reads do not use the offset.
* `os.Stat` goes by the name of the file: the length it reports is a datum of
  the environment, not the length of the bytes behind the handle.
* The environment may fail: each file carries a schedule of write faults and
  of read faults, one entry per call, and the amount of memory `make` can
  still obtain for one byte slice. Allocations of constant size (the eight
  bytes of a length field) are taken to succeed; the allocation of the payload
  slice in `Read`, whose length comes from the file, is not.
-/

namespace Log

/-- One byte. -/
abbrev Byte := Fin 256

/-- Error values that can come out of the file and the buffered writer. -/
inductive Error where
  /-- Value `io.EOF`. -/
  | EOF
  /-- Value `io.ErrShortWrite`. -/
  | ErrShortWrite
  /-- Value `os.ErrClosed`: the file has already been closed. -/
  | ErrClosed
  /-- The error of `File.ReadAt` for an offset below zero. -/
  | negativeOffset
  /-- Error `EFBIG`: the write would go past the largest file offset. -/
  | EFBIG
  /-- Error `EINVAL` of a positional read whose range goes past the largest file offset. -/
  | EINVAL
  /-- Any other error number reported by the operating system. -/
  | errno (code : Nat)
  deriving DecidableEq, Repr

/-- Constant `lenWidth` of the source: the width of the length field. -/
def lenWidth : Nat := 8

/-- Largest file length: file offsets are signed 64-bit integers. -/
def maxFileSize : Nat := 2 ^ 63 - 1

/-- Constant `defaultBufSize` of package `bufio`, the size `bufio.NewWriter` gives its buffer. -/
def defaultBufSize : Nat := 4096

/-- Constant `maxAlloc` of the Go runtime on 64-bit Linux: `make` of a byte slice longer than
this panics (`makeslice: len out of range`), and no byte slice is longer. Whether a shorter
slice can be allocated depends on the memory that is left (`File.mem`). -/
def maxAlloc : Nat := 2 ^ 48

/-- Conversion of a non-negative `int` to `uint64`. -/
def uint64 (n : Nat) : Nat := n % 2 ^ 64

/-- Conversion `int64(u)` of a `uint64`: values from `2^63` on become negative. -/
def int64 (u : Nat) : Int :=
  if u % 2 ^ 64 < 2 ^ 63 then ((u % 2 ^ 64 : Nat) : Int) else ((u % 2 ^ 64 : Nat) : Int) - 2 ^ 64

/-- Method `binary.BigEndian.PutUint64`: the eight bytes of `v`, most significant first. -/
def enc.PutUint64 (v : Nat) : List Byte :=
  [⟨v / 2 ^ 56 % 256, Nat.mod_lt _ (by decide)⟩,
   ⟨v / 2 ^ 48 % 256, Nat.mod_lt _ (by decide)⟩,
   ⟨v / 2 ^ 40 % 256, Nat.mod_lt _ (by decide)⟩,
   ⟨v / 2 ^ 32 % 256, Nat.mod_lt _ (by decide)⟩,
   ⟨v / 2 ^ 24 % 256, Nat.mod_lt _ (by decide)⟩,
   ⟨v / 2 ^ 16 % 256, Nat.mod_lt _ (by decide)⟩,
   ⟨v / 2 ^ 8 % 256, Nat.mod_lt _ (by decide)⟩,
   ⟨v % 256, Nat.mod_lt _ (by decide)⟩]

/-- Method `binary.BigEndian.Uint64`: decodes the first eight bytes. Go panics on a shorter
slice; `Read` only calls it on a slice of length `lenWidth`, the short case is given `0`. -/
def enc.Uint64 : List Byte → Nat
  | b0 :: b1 :: b2 :: b3 :: b4 :: b5 :: b6 :: b7 :: _ =>
      b7.val + b6.val * 2 ^ 8 + b5.val * 2 ^ 16 + b4.val * 2 ^ 24 + b3.val * 2 ^ 32
        + b2.val * 2 ^ 40 + b1.val * 2 ^ 48 + b0.val * 2 ^ 56
  | _ => 0

/-- A fault of the environment: the call fails with `err` once `after` bytes have been
transferred (if the call gets that far). -/
structure Fault where
  after : Nat
  err : Error
  deriving DecidableEq, Repr

/-- An open file (`*os.File`) together with what the environment will do to it.

* `data`: the bytes of the file;
* `offset`: the offset of the handle, where the next `Write` goes when the handle was not
  opened with `O_APPEND`;
* `append`: whether the handle was opened with `O_APPEND`, so that every `Write` goes to the
  end of the file;
* `closed`: whether `Close` has been called on the handle;
* `statSize`: the length `os.Stat` reports for the name of the file;
* `statErr`: the error `os.Stat` of the file's name gives, if any;
* `closeErr`: the error the close system call gives, if any;
* `wfaults`, `rfaults`: what happens to the next calls of `Write` and of `ReadAt`, one entry
  per call that reaches the device; `none`, or no entry, means the call is not disturbed;
* `mem`: the length of the longest byte slice the Go runtime can still allocate. -/
structure File where
  data : List Byte
  offset : Nat
  append : Bool
  closed : Bool
  statSize : Nat
  statErr : Option Error
  closeErr : Option Error
  wfaults : List (Option Fault)
  rfaults : List (Option Fault)
  mem : Nat
  deriving DecidableEq, Repr

/-- The offset at which the next `Write` puts its bytes: the end of the file for a handle
opened with `O_APPEND`, the offset of the handle otherwise. -/
def File.writePos (f : File) : Nat := if f.append then f.data.length else f.offset

/-- An undisturbed open file with the given bytes: the handle is at the end of the file, the
name of the file still leads to it, and one gibibyte can be allocated. -/
def File.ofData (d : List Byte) : File :=
  { data := d, offset := d.length, append := false, closed := false, statSize := d.length,
    statErr := none, closeErr := none, wfaults := [], rfaults := [], mem := 2 ^ 30 }

/-- An undisturbed file with the given bytes, just opened for reading and writing without
`O_APPEND`: the handle is at offset `0`. -/
def File.atStart (d : List Byte) : File := { File.ofData d with offset := 0 }

/-- Function `os.Stat(f.Name())` followed by `fi.Size()`: the length recorded for the name of
the file. -/
def File.Stat (f : File) : Except Error Int :=
  match f.statErr with
  | some e => .error e
  | none => .ok (f.statSize : Int)

/-- The bytes of a file after `b` has been written at offset `w`: the bytes of `b` replace
the bytes that were there and lengthen the file where they go past its end; when `w` is past
the end the gap is filled with zero bytes. Writing no byte changes nothing. -/
def overwrite (d : List Byte) (w : Nat) (b : List Byte) : List Byte :=
  if b.length = 0 then d
  else d.take w ++ List.replicate (w - d.length) 0 ++ b ++ d.drop (w + b.length)

/-- Where a call of `Write` with `len(b) = n` on a file with `room` bytes left stops short:
after `k` bytes with the scheduled fault if it strikes first, after `room` bytes with `EFBIG`
when the file is full; `none` when all `n` bytes go through. -/
def writeCut (fault : Option Fault) (room n : Nat) : Option (Nat × Error) :=
  match fault with
  | some ⟨k, e⟩ =>
      if k < n ∧ k ≤ room then some (k, e)
      else if room < n then some (room, Error.EFBIG) else none
  | none => if room < n then some (room, Error.EFBIG) else none

/-- Method `(*os.File).Write`: writes `b` at the write position of the handle and moves the
handle past the bytes written. It returns the number of bytes written and an error whenever
that number is below `len(b)`. -/
def File.Write (f : File) (b : List Byte) : File × Nat × Option Error :=
  if f.closed then (f, 0, some Error.ErrClosed)
  else
    match writeCut f.wfaults.head?.join (maxFileSize - f.writePos) b.length with
    | some (k, e) =>
        ({ f with data := overwrite f.data f.writePos (b.take k), offset := f.writePos + k,
                  wfaults := f.wfaults.tail }, k, some e)
    | none =>
        ({ f with data := overwrite f.data f.writePos b, offset := f.writePos + b.length,
                  wfaults := f.wfaults.tail }, b.length, none)

/-- Where a call of `ReadAt` with `len(b) = n` stops short when `avail` of the bytes asked for
lie before the end of the file: after `k` bytes with the scheduled fault if it strikes first,
after `avail` bytes with `io.EOF` at the end of the file; `none` when all `n` bytes are read.
It is asked only about ranges that end within the largest file offset: `File.ReadAt` refuses
the others with `EINVAL` before a byte is read. -/
def readCut (fault : Option Fault) (avail n : Nat) : Option (Nat × Error) :=
  match fault with
  | some ⟨k, e⟩ =>
      if k < n ∧ k ≤ avail then some (k, e)
      else if avail < n then some (avail, Error.EOF) else none
  | none => if avail < n then some (avail, Error.EOF) else none

/-- Method `(*os.File).ReadAt`: reads `len(b)` bytes at offset `off` into `b`. It returns the
buffer after the call, the number of bytes read, and an error whenever that number is below
`len(b)`. A negative offset is an error; an empty buffer reads nothing and gives no error; a
range that ends past the largest file offset is refused by the system with `EINVAL` before a
byte is read. -/
def File.ReadAt (f : File) (b : List Byte) (off : Int) : File × List Byte × Nat × Option Error :=
  if off < 0 then (f, b, 0, some Error.negativeOffset)
  else if b.length = 0 then (f, b, 0, none)
  else if f.closed then (f, b, 0, some Error.ErrClosed)
  else if off.toNat + b.length > maxFileSize then (f, b, 0, some Error.EINVAL)
  else
    let avail := (f.data.drop off.toNat).take b.length
    match readCut f.rfaults.head?.join avail.length b.length with
    | some (k, e) =>
        ({ f with rfaults := f.rfaults.tail }, avail.take k ++ b.drop k, k, some e)
    | none => ({ f with rfaults := f.rfaults.tail }, avail, b.length, none)

/-- Method `(*os.File).Close`. -/
def File.Close (f : File) : File × Option Error :=
  if f.closed then (f, some Error.ErrClosed) else ({ f with closed := true }, f.closeErr)

/-- Type `bufio.Writer` over a file: `err` is the sticky error, `buf` the bytes `buf[0:n]`
waiting to be written. The buffer has `defaultBufSize` bytes. -/
structure Writer where
  err : Option Error
  buf : List Byte
  deriving DecidableEq, Repr

/-- Function `bufio.NewWriter`. -/
def NewWriter : Writer := { err := none, buf := [] }

/-- Method `(*bufio.Writer).Buffered`. -/
def Writer.Buffered (b : Writer) : Nat := b.buf.length

/-- Method `(*bufio.Writer).Available`. -/
def Writer.Available (b : Writer) : Nat := defaultBufSize - b.buf.length

/-- Method `(*bufio.Writer).Flush`. -/
def Writer.Flush (b : Writer) (f : File) : Writer × File × Option Error :=
  match b.err with
  | some e => (b, f, some e)
  | none =>
      if b.buf.length = 0 then (b, f, none)
      else
        let r := f.Write b.buf
        let err := if r.2.1 < b.buf.length ∧ r.2.2 = none then some Error.ErrShortWrite else r.2.2
        match err with
        | some e => ({ err := some e, buf := b.buf.drop r.2.1 }, r.1, some e)
        | none => ({ b with buf := [] }, r.1, none)

/-- State of the loop of `(*bufio.Writer).Write`: the writer, the file, the rest of `p`, and
the count `nn`. -/
structure WriteLoop where
  b : Writer
  f : File
  p : List Byte
  nn : Nat
  deriving DecidableEq, Repr

/-- Condition of the loop of `(*bufio.Writer).Write`: `len(p) > b.Available() && b.err == nil`. -/
def WriteLoop.cond (st : WriteLoop) : Bool :=
  decide (st.p.length > st.b.Available) && st.b.err.isNone

/-- Body of the loop of `(*bufio.Writer).Write`. -/
def WriteLoop.body (st : WriteLoop) : WriteLoop :=
  if st.b.Buffered = 0 then
    -- large write, empty buffer: write directly from p
    let r := st.f.Write st.p
    { b := { st.b with err := r.2.2 }, f := r.1, p := st.p.drop r.2.1, nn := st.nn + r.2.1 }
  else
    let n := min st.b.Available st.p.length
    let r := ({ st.b with buf := st.b.buf ++ st.p.take n } : Writer).Flush st.f
    { b := r.1, f := r.2.1, p := st.p.drop n, nn := st.nn + n }

/-- The loop of `(*bufio.Writer).Write`, run for at most `fuel` rounds. Two rounds always
reach the exit (`WriteLoop.run_exit`, `WriteLoop.run_stable`). -/
def WriteLoop.run : Nat → WriteLoop → WriteLoop
  | 0, st => st
  | fuel + 1, st => if st.cond then WriteLoop.run fuel st.body else st

/-- Method `(*bufio.Writer).Write`. -/
def Writer.Write (b : Writer) (f : File) (p : List Byte) : Writer × File × Nat × Option Error :=
  let st := WriteLoop.run 2 { b := b, f := f, p := p, nn := 0 }
  match st.b.err with
  | some e => (st.b, st.f, st.nn, some e)
  | none =>
      let n := min st.b.Available st.p.length
      ({ st.b with buf := st.b.buf ++ st.p.take n }, st.f, st.nn + n, none)

/-- Function `binary.Write(w, enc, v)` for a `uint64` value `v`. -/
def binary.Write (b : Writer) (f : File) (v : Nat) : Writer × File × Option Error :=
  let r := b.Write f (enc.PutUint64 v)
  (r.1, r.2.1, r.2.2.2)

/-- Type `store` of the source: the embedded file, the buffered writer over it, and `size`. -/
structure store where
  file : File
  buf : Writer
  size : Nat
  deriving DecidableEq, Repr

/-- Function `newStore`. -/
def newStore (f : File) : Except Error store :=
  match f.Stat with
  | .error e => .error e
  | .ok sz => .ok { file := f, buf := NewWriter, size := uint64 sz.toNat }

/-- Method `(*store).Append`: returns the store after the call and `(u, pos, err)`. -/
def store.Append (s : store) (p : List Byte) : store × Nat × Nat × Option Error :=
  let pos := s.size
  let r1 := binary.Write s.buf s.file (uint64 p.length)
  match r1.2.2 with
  | some e => ({ s with buf := r1.1, file := r1.2.1 }, 0, 0, some e)
  | none =>
      let r2 := r1.1.Write r1.2.1 p
      match r2.2.2.2 with
      | some e => ({ s with buf := r2.1, file := r2.2.1 }, 0, 0, some e)
      | none =>
          let w := r2.2.2.1 + lenWidth
          ({ file := r2.2.1, buf := r2.1, size := (s.size + uint64 w) % 2 ^ 64 },
            uint64 w, pos, none)

/-- Outcome of `Read`: the record, an error, a run-time panic of `make` (the length is out of
range), or the end of the process with the fatal error `out of memory` (the length is in range
and the memory is not there). -/
inductive ReadResult where
  | ok (b : List Byte)
  | error (e : Error)
  | panic
  | fatal
  deriving DecidableEq, Repr

/-- Method `(*store).Read`. The slice of `lenWidth` bytes is taken to be allocated; the slice
for the payload is allocated when its length is within `maxAlloc` and within the memory that
is left. -/
def store.Read (s : store) (pos : Nat) : store × ReadResult :=
  let r := s.buf.Flush s.file
  match r.2.2 with
  | some e => ({ s with buf := r.1, file := r.2.1 }, ReadResult.error e)
  | none =>
      let size : List Byte := List.replicate lenWidth 0
      let r1 := r.2.1.ReadAt size (int64 pos)
      match r1.2.2.2 with
      | some e => ({ s with buf := r.1, file := r1.1 }, ReadResult.error e)
      | none =>
          let n := enc.Uint64 r1.2.1
          if n > maxAlloc then ({ s with buf := r.1, file := r1.1 }, ReadResult.panic)
          else if n > r1.1.mem then ({ s with buf := r.1, file := r1.1 }, ReadResult.fatal)
          else
            let b : List Byte := List.replicate n 0
            let r2 := r1.1.ReadAt b (int64 ((pos + lenWidth) % 2 ^ 64))
            match r2.2.2.2 with
            | some e => ({ s with buf := r.1, file := r2.1 }, ReadResult.error e)
            | none => ({ s with buf := r.1, file := r2.1 }, ReadResult.ok r2.2.1)

/-- Method `(*store).ReadAt`: returns the store after the call, the buffer `p` after the call,
and `(n, err)`. -/
def store.ReadAt (s : store) (p : List Byte) (off : Int) : store × List Byte × Nat × Option Error :=
  let r := s.buf.Flush s.file
  match r.2.2 with
  | some e => ({ s with buf := r.1, file := r.2.1 }, p, 0, some e)
  | none =>
      let r1 := r.2.1.ReadAt p off
      ({ s with buf := r.1, file := r1.1 }, r1.2.1, r1.2.2.1, r1.2.2.2)

/-- Method `(*store).Close`. -/
def store.Close (s : store) : store × Option Error :=
  let r := s.buf.Flush s.file
  match r.2.2 with
  | some e => ({ s with buf := r.1, file := r.2.1 }, some e)
  | none =>
      let c := r.2.1.Close
      ({ s with buf := r.1, file := c.1 }, c.2)

/-- Logical content of a store: the bytes of the file followed by the buffered bytes. -/
def store.content (s : store) : List Byte := s.file.data ++ s.buf.buf

/-- The frame of a payload: the length as eight big-endian bytes, then the payload. -/
def frame (p : List Byte) : List Byte := enc.PutUint64 (uint64 p.length) ++ p

/-- The positional reads on `f` are not made to fail by the environment: the handle is open
and no read fault is scheduled. -/
def File.readsDoNotFail (f : File) : Prop := f.closed = false ∧ ∀ x ∈ f.rfaults, x = none

/-- The handle writes at the end of the file: it was opened with `O_APPEND`, or its offset is
the length of the file. -/
def File.atEnd (f : File) : Prop := f.writePos = f.data.length

/-- The states the types allow: the file is no longer than the largest file offset and the
buffered bytes fit the buffer of the writer. -/
def store.WF (s : store) : Prop :=
  s.file.data.length ≤ maxFileSize ∧ s.buf.buf.length ≤ defaultBufSize

/-- The size counter equals the length of the file plus the number of buffered bytes. -/
def store.SizeInv (s : store) : Prop := s.size = s.file.data.length + s.buf.buf.length

/-- A call on the store. -/
inductive Op where
  | append (p : List Byte)
  | read (pos : Nat)
  | readAt (p : List Byte) (off : Int)
  | close
  deriving DecidableEq, Repr

/-- The calls that flush the buffer: `Read`, `ReadAt` and `Close`. -/
def Op.flushes : Op → Bool
  | Op.append _ => false
  | _ => true

/-- The state of the store after a call. -/
def step (s : store) : Op → store
  | Op.append p => (s.Append p).1
  | Op.read pos => (s.Read pos).1
  | Op.readAt p off => (s.ReadAt p off).1
  | Op.close => s.Close.1

/-- The state of the store after a sequence of calls. -/
def run (s : store) : List Op → store
  | [] => s
  | op :: ops => run (step s op) ops

/-- The records appended in a sequence of calls: for every `Append` that returned no error,
the position it returned and its payload, in the order of the calls. -/
def records (s : store) : List Op → List (Nat × List Byte)
  | [] => []
  | Op.append p :: ops =>
      if (s.Append p).2.2.2 = none then
        ((s.Append p).2.2.1, p) :: records (s.Append p).1 ops
      else records (s.Append p).1 ops
  | op :: ops => records (step s op) ops

/-- The bytes the file and the buffer can still take: what is left below the largest file
offset from the write position of the handle on, and what is left of the buffer. -/
def headroom (f : File) (b : Writer) : Nat :=
  (maxFileSize - f.writePos) + (defaultBufSize - b.buf.length)

/-- A file `newStore` can be given without the size counter ever wrapping: the file is no
longer than the largest file offset, and the length stat reports plus the bytes the file and
the buffer can still take stay below `2^64`. Every file whose stat reports its length and
whose handle is at its end is such a file. -/
def File.Fits (f : File) : Prop :=
  f.data.length ≤ maxFileSize ∧
    f.statSize + (maxFileSize - f.writePos) + defaultBufSize < 2 ^ 64

/-- The stores the program can hold: built by `newStore` over a file, then used through
`Append`, `Read`, `ReadAt` and `Close`. -/
inductive Reachable : store → Prop where
  | new (f : File) (s : store) (hf : f.Fits) (h : newStore f = .ok s) : Reachable s
  | step (s : store) (op : Op) (h : Reachable s) : Reachable (step s op)

/-- A second handle on the same file, as the caller gets by opening the file again, with or
without `O_APPEND`: the new handle is open and at offset `0`, and stat of the name that was
opened reports the length of the file. -/
def File.reopen (f : File) (append : Bool) : File :=
  { f with closed := false, offset := 0, append := append, statSize := f.data.length }

/-- `make([]byte, n)` gives a slice on the machine of `f`: the length is within `maxAlloc` and
within the memory that is left. -/
def File.canAlloc (f : File) (n : Nat) : Prop := n ≤ maxAlloc ∧ n ≤ f.mem

/-- The writes on `f` are not made to fail by the environment: the handle is open and no
write fault is scheduled. -/
def File.writesDoNotFail (f : File) : Prop := f.closed = false ∧ ∀ x ∈ f.wfaults, x = none

instance (f : File) : Decidable f.writesDoNotFail :=
  inferInstanceAs (Decidable (f.closed = false ∧ ∀ x ∈ f.wfaults, x = none))

/-- The store `newStore` gives over an empty, undisturbed file. -/
def emptyStore : store := { file := File.ofData [], buf := NewWriter, size := 0 }

instance (f : File) : Decidable f.readsDoNotFail :=
  inferInstanceAs (Decidable (f.closed = false ∧ ∀ x ∈ f.rfaults, x = none))

instance (f : File) : Decidable f.atEnd :=
  inferInstanceAs (Decidable (f.writePos = f.data.length))

instance (f : File) : Decidable f.Fits :=
  inferInstanceAs (Decidable (f.data.length ≤ maxFileSize ∧
    f.statSize + (maxFileSize - f.writePos) + defaultBufSize < 2 ^ 64))

instance (f : File) (n : Nat) : Decidable (f.canAlloc n) :=
  inferInstanceAs (Decidable (n ≤ maxAlloc ∧ n ≤ f.mem))

instance (s : store) : Decidable s.WF :=
  inferInstanceAs
    (Decidable (s.file.data.length ≤ maxFileSize ∧ s.buf.buf.length ≤ defaultBufSize))

instance (s : store) : Decidable s.SizeInv :=
  inferInstanceAs (Decidable (s.size = s.file.data.length + s.buf.buf.length))

/-- The bytes of `"hello"`. -/
def hello : List Byte := [104, 101, 108, 108, 111]

/-- The bytes of `"world"`. -/
def world : List Byte := [119, 111, 114, 108, 100]

/-- An empty file whose first write will fail with error number 28 (no space left on the
device) before any byte is written. -/
def fullDiskFile : File := { File.ofData [] with wfaults := [some ⟨0, Error.errno 28⟩] }

/-- The store `newStore` gives over `fullDiskFile`. -/
def fullDiskStore : store := { file := fullDiskFile, buf := NewWriter, size := 0 }

/-- A store the program reaches when the disk is full: `"hello"` has been appended (it is in
the buffer), the flush of a `Read` has failed, and the writer keeps that error. -/
def brokenStore : store := ((fullDiskStore.Append hello).1.Read 0).1

/-- An empty file whose first positional read will fail with error number 5 (input/output
error) before any byte is read. -/
def badSectorFile : File := { File.ofData [] with rfaults := [some ⟨0, Error.errno 5⟩] }

/-- The store `newStore` gives over `badSectorFile`. -/
def badSectorStore : store := { file := badSectorFile, buf := NewWriter, size := 0 }

/-- The store of the durability scenario, reopened: `"hello"` is appended to
`badSectorStore`, the store is closed, the file is opened again with `O_APPEND` and given to
`newStore`. -/
def reopenedStore : store :=
  { file := File.reopen (badSectorStore.Append hello).1.Close.1.file true, buf := NewWriter,
    size := 13 }

/-- The fresh store of the scenario without faults: `"hello"` and `"world"` are appended to
`emptyStore`, the store is closed, the file is opened again with `O_APPEND` and given to
`newStore`. -/
def resumedStore : store :=
  { file := File.reopen (run emptyStore [Op.append hello, Op.append world]).Close.1.file true,
    buf := NewWriter, size := 26 }

/-- The store of the scenario in which the file is opened again without `O_APPEND`:
`"hello"` is appended to `emptyStore`, the store is closed, the file is opened again for
reading and writing and given to `newStore`. -/
def overwritingStore : store :=
  { file := File.reopen (emptyStore.Append hello).1.Close.1.file false, buf := NewWriter,
    size := 13 }

/-- A file that already holds one frame, the record `"hello"`; the handle is at its end. -/
def helloFile : File := File.ofData (frame hello)

/-- The store `newStore` gives over `helloFile`. -/
def helloStore : store := { file := helloFile, buf := NewWriter, size := 13 }

/-- The file with the frame of `"hello"`, opened for reading and writing without `O_APPEND`:
the handle is at offset `0`. -/
def rewoundFile : File := File.atStart (frame hello)

/-- The store `newStore` gives over `rewoundFile`. -/
def rewoundStore : store := { file := rewoundFile, buf := NewWriter, size := 13 }

/-- The store of the scenario in which the first store did not write at the end of its
file: `"world"` is appended to `rewoundStore`, the store is closed, the file is opened again
with `O_APPEND` and given to `newStore`. -/
def shrunkStore : store :=
  { file := File.reopen (rewoundStore.Append world).1.Close.1.file true, buf := NewWriter,
    size := 13 }

/-- An open file with the frame of `"hello"` whose name does not lead to it when `newStore`
looks (the file has been renamed, and its old name given to a new, empty file): stat of the
name reports the length `0`. -/
def renamedFile : File := { File.ofData (frame hello) with statSize := 0 }

/-- The store `newStore` gives over `renamedFile`. -/
def renamedStore : store := { file := renamedFile, buf := NewWriter, size := 0 }

/-- A file of `2^63 - 1` bytes, the longest there is; the handle is at its end. -/
def hugeFile : File := File.ofData (List.replicate maxFileSize 0)

/-- The store `newStore` gives over `hugeFile`. -/
def hugeStore : store := { file := hugeFile, buf := NewWriter, size := maxFileSize }

/-- An empty file whose handle has been moved to offset `9`, past its end. -/
def seekedFile : File := { File.ofData [] with offset := 9 }

/-- The store `newStore` gives over `seekedFile`. -/
def seekedStore : store := { file := seekedFile, buf := NewWriter, size := 0 }

/-- Whether the call `op` on the store `s` is an `Append`, a `Read` or a `ReadAt` that returns
no error. -/
def Op.succeeds (op : Op) (s : store) : Bool :=
  match op with
  | Op.append p => decide ((s.Append p).2.2.2 = none)
  | Op.read pos =>
      match (s.Read pos).2 with
      | ReadResult.ok _ => true
      | _ => false
  | Op.readAt p off => decide ((s.ReadAt p off).2.2.2 = none)
  | Op.close => false

/-- Whether every call of the sequence, made in order on the store `s`, is an `Append`, a
`Read` or a `ReadAt` that returns no error. -/
def allSucceed (s : store) : List Op → Bool
  | [] => true
  | op :: ops => op.succeeds s && allSucceed (step s op) ops

/-- A payload of one byte more than a gibibyte, more than `File.ofData` lets `make` obtain. -/
def bigPayload : List Byte := List.replicate (2 ^ 30 + 1) 0

/-- The store of the scenario in which the memory is short: `bigPayload` is appended to
`emptyStore`, the store is closed, the file is opened again with `O_APPEND` and given to
`newStore`. -/
def bigResumedStore : store :=
  { file := File.reopen (emptyStore.Append bigPayload).1.Close.1.file true, buf := NewWriter,
    size := 2 ^ 30 + 9 }

/-- The store of the scenario in which stat did not report the length of the file: `"world"`
is appended to `renamedStore`, the store is closed, the file is opened again with `O_APPEND`
and given to `newStore`. -/
def grownStore : store :=
  { file := File.reopen (renamedStore.Append world).1.Close.1.file true, buf := NewWriter,
    size := 26 }

/-! ## What the operations do, as predicates -/

/-- What a `Write` or a flush leaves of the handle and of the environment: the open mode, what
stat reports, the memory, the schedule of read faults, and whether the handle is closed. -/
structure File.SameHandle (f g : File) : Prop where
  closed : g.closed = f.closed
  rfaults : g.rfaults = f.rfaults
  statErr : g.statErr = f.statErr
  closeErr : g.closeErr = f.closeErr
  statSize : g.statSize = f.statSize
  mem : g.mem = f.mem
  append : g.append = f.append

/-- What a positional read or a close leaves of the file `f`, giving `g`: the bytes, the
handle's offset and open mode, what stat reports and the memory; a closed handle stays closed,
and a schedule without read faults stays without. -/
structure File.ReadKeeps (f g : File) : Prop where
  data : g.data = f.data
  offset : g.offset = f.offset
  append : g.append = f.append
  closed : f.closed = true → g.closed = true
  statSize : g.statSize = f.statSize
  statErr : g.statErr = f.statErr
  closeErr : g.closeErr = f.closeErr
  wfaults : g.wfaults = f.wfaults
  mem : g.mem = f.mem
  rfaults : (∀ x ∈ f.rfaults, x = none) → ∀ x ∈ g.rfaults, x = none

/-- What `File.Write` does, in one statement. -/
structure File.WriteSpec (f : File) (b : List Byte) (r : File × Nat × Option Error) : Prop where
  data : r.1.data = overwrite f.data f.writePos (b.take r.2.1)
  end_data : f.atEnd → r.1.data = f.data ++ b.take r.2.1
  atEnd : f.atEnd → r.1.atEnd
  pos : r.1.writePos = f.writePos + r.2.1
  room : r.2.1 ≤ maxFileSize - f.writePos
  n_le : r.2.1 ≤ b.length
  short : r.2.1 < b.length → r.2.2 ≠ none
  ok : r.2.2 = none → r.2.1 = b.length ∧ f.closed = false
  wf : f.data.length ≤ maxFileSize → r.1.data.length ≤ maxFileSize
  same : File.SameHandle f r.1

/-- What `Writer.Flush` does, in one statement. -/
structure Writer.FlushSpec (b : Writer) (f : File) (r : Writer × File × Option Error) : Prop where
  content : f.atEnd → r.2.1.data ++ r.1.buf = f.data ++ b.buf
  grow : f.atEnd → f.data <+: r.2.1.data
  atEnd : f.atEnd → r.2.1.atEnd
  head : b.buf.length ≤ defaultBufSize → headroom r.2.1 r.1 = headroom f b
  data : r.2.2 = none → r.2.1.data = overwrite f.data f.writePos b.buf
  err : r.2.2 = r.1.err
  ok : r.2.2 = none → r.1.buf = [] ∧ b.err = none
  sticky : ∀ e, b.err = some e → r = (b, f, some e)
  wf : f.data.length ≤ maxFileSize → r.2.1.data.length ≤ maxFileSize
  buf_le : r.1.buf.length ≤ b.buf.length
  wrote : r.2.2 = none → b.buf ≠ [] → f.closed = false
  same : File.SameHandle f r.2.1

/-- Invariant of the loop of `Writer.Write` started on writer `b0`, file `f0` and slice `p0`:
the first `nn` bytes of `p0` have been handed to the file and the buffer, the rest is still to
be written. Where the handle writes at the end of the file, the bytes handed over follow the
bytes that were there. -/
structure WriteLoop.Inv (b0 : Writer) (f0 : File) (p0 : List Byte) (st : WriteLoop) : Prop where
  content : f0.atEnd → st.f.data ++ st.b.buf = f0.data ++ b0.buf ++ p0.take st.nn
  grow : f0.atEnd → f0.data <+: st.f.data
  atEnd : f0.atEnd → st.f.atEnd
  head : b0.buf.length ≤ defaultBufSize → headroom st.f st.b + st.nn = headroom f0 b0
  rest : st.p = p0.drop st.nn
  nn_le : st.nn ≤ p0.length
  wf : f0.data.length ≤ maxFileSize → st.f.data.length ≤ maxFileSize
  buf_le : b0.buf.length ≤ defaultBufSize → st.b.buf.length ≤ defaultBufSize
  same : File.SameHandle f0 st.f

/-- The loop of `Writer.Write` on an undisturbed file with room for `k` bytes from the write
position on: no write has failed, none will be made to fail, and the bytes written, buffered
and still to be written are `k` in all. -/
structure WriteLoop.Clean (k : Nat) (st : WriteLoop) : Prop where
  err : st.b.err = none
  writes : st.f.writesDoNotFail
  buf_le : st.b.buf.length ≤ defaultBufSize
  total : st.f.writePos + st.b.buf.length + st.p.length = k

/-- What `Writer.Write` does, in one statement. -/
structure Writer.WriteSpec (b : Writer) (f : File) (p : List Byte)
    (r : Writer × File × Nat × Option Error) : Prop where
  content : f.atEnd → r.2.1.data ++ r.1.buf = f.data ++ b.buf ++ p.take r.2.2.1
  grow : f.atEnd → f.data <+: r.2.1.data
  atEnd : f.atEnd → r.2.1.atEnd
  head : b.buf.length ≤ defaultBufSize → headroom r.2.1 r.1 + r.2.2.1 = headroom f b
  n_le : r.2.2.1 ≤ p.length
  err : r.2.2.2 = r.1.err
  ok : r.2.2.2 = none → r.2.2.1 = p.length ∧ b.err = none
  sticky : ∀ e, b.err = some e → r = (b, f, 0, some e)
  wf : f.data.length ≤ maxFileSize → r.2.1.data.length ≤ maxFileSize
  buf_le : b.buf.length ≤ defaultBufSize → r.1.buf.length ≤ defaultBufSize
  same : File.SameHandle f r.2.1

/-- What `store.Append` does, in one statement. -/
structure store.AppendSpec (s : store) (p : List Byte) (r : store × Nat × Nat × Option Error) :
    Prop where
  grow : s.file.atEnd → s.content <+: r.1.content
  file_grow : s.file.atEnd → s.file.data <+: r.1.file.data
  atEnd : s.file.atEnd → r.1.file.atEnd
  ok_content : s.file.atEnd → r.2.2.2 = none →
    r.1.content = s.content ++ (enc.PutUint64 (uint64 p.length) ++ p)
  head_le : s.buf.buf.length ≤ defaultBufSize →
    headroom r.1.file r.1.buf ≤ headroom s.file s.buf
  head_ok : s.buf.buf.length ≤ defaultBufSize → r.2.2.2 = none →
    headroom r.1.file r.1.buf + (p.length + lenWidth) = headroom s.file s.buf
  err : r.2.2.2 = r.1.buf.err
  fail : ∀ e, r.2.2.2 = some e → r.2.1 = 0 ∧ r.2.2.1 = 0 ∧ r.1.size = s.size
  ok : r.2.2.2 = none → s.buf.err = none ∧
    r.2.1 = uint64 (p.length + lenWidth) ∧ r.2.2.1 = s.size ∧
    r.1.size = (s.size + uint64 (p.length + lenWidth)) % 2 ^ 64
  sticky : ∀ e, s.buf.err = some e → r = (s, 0, 0, some e)
  wf : s.file.data.length ≤ maxFileSize → r.1.file.data.length ≤ maxFileSize
  buf_le : s.buf.buf.length ≤ defaultBufSize → r.1.buf.buf.length ≤ defaultBufSize
  same : File.SameHandle s.file r.1.file

/-- What `Read`, `ReadAt` and `Close` do to the state of the store `s`, giving `t`: the flush
hands buffered bytes to the file; the size stays as it is, and where the handle writes at the
end of the file the logical content stays as it is too. -/
structure store.ReadEffect (s t : store) : Prop where
  size : t.size = s.size
  content : s.file.atEnd → t.content = s.content
  file_grow : s.file.atEnd → s.file.data <+: t.file.data
  atEnd : s.file.atEnd → t.file.atEnd
  head : s.buf.buf.length ≤ defaultBufSize → headroom t.file t.buf = headroom s.file s.buf
  err : (s.buf.Flush s.file).2.2 = t.buf.err
  flushed : (s.buf.Flush s.file).2.2 = none →
    t.buf.buf = [] ∧ t.file.data = overwrite s.file.data s.file.writePos s.buf.buf
  flushed_end : s.file.atEnd → (s.buf.Flush s.file).2.2 = none → t.file.data = s.content
  sticky : ∀ e, s.buf.err = some e → t.buf = s.buf ∧ t.file.data = s.file.data
  wf : s.file.data.length ≤ maxFileSize → t.file.data.length ≤ maxFileSize
  buf_le : t.buf.buf.length ≤ s.buf.buf.length
  closed : s.file.closed = true → t.file.closed = true
  rfaults : (∀ x ∈ s.file.rfaults, x = none) → ∀ x ∈ t.file.rfaults, x = none
  statErr : t.file.statErr = s.file.statErr
  closeErr : t.file.closeErr = s.file.closeErr
  statSize : t.file.statSize = s.file.statSize
  mem : t.file.mem = s.file.mem
  append : t.file.append = s.file.append

/-- Invariant of the reachable stores: the state is one the types allow, and the size counter
plus the bytes the file and the buffer can still take stays below `2^64`, so that the counter
never wraps. -/
def store.Good (s : store) : Prop := s.WF ∧ s.size + headroom s.file s.buf < 2 ^ 64

/-- Invariant of the stores whose handle writes at the end of the file: the state is one the
types allow, and as long as no write has failed the size counter is the length of the logical
content. -/
def store.Tidy (s : store) : Prop := s.WF ∧ s.file.atEnd ∧ (s.buf.err = none → s.SizeInv)

instance (s : store) : Decidable s.Good :=
  inferInstanceAs (Decidable (s.WF ∧ s.size + headroom s.file s.buf < 2 ^ 64))

instance (s : store) : Decidable s.Tidy :=
  inferInstanceAs (Decidable (s.WF ∧ s.file.atEnd ∧ (s.buf.err = none → s.SizeInv)))

/-! ## Encoding -/

theorem enc.PutUint64_length (v : Nat) : (enc.PutUint64 v).length = 8 := rfl

theorem enc.Uint64_PutUint64 (v : Nat) (h : v < 2 ^ 64) (rest : List Byte) :
    enc.Uint64 (enc.PutUint64 v ++ rest) = v := by
  simp only [enc.PutUint64, enc.Uint64, List.cons_append, List.nil_append]
  omega

theorem int64_of_lt (u : Nat) (h : u < 2 ^ 63) : int64 u = (u : Int) := by
  unfold int64
  have h1 : u % 2 ^ 64 = u := Nat.mod_eq_of_lt (by omega)
  rw [h1, if_pos h]

/-! ## The file -/

theorem writeCut_some {fault : Option Fault} {room n k : Nat} {e : Error}
    (h : writeCut fault room n = some (k, e)) : k < n ∧ k ≤ room := by
  unfold writeCut at h
  split at h <;> split at h <;> (try split at h) <;> simp at h <;> omega

theorem writeCut_none {fault : Option Fault} {room n : Nat}
    (h : writeCut fault room n = none) : n ≤ room := by
  unfold writeCut at h
  split at h <;> split at h <;> (try split at h) <;> simp at h <;> omega

theorem writeCut_clean (room n : Nat) (h : n ≤ room) : writeCut none room n = none := by
  simp [writeCut]; omega

theorem readCut_some {fault : Option Fault} {avail n k : Nat} {e : Error}
    (h : readCut fault avail n = some (k, e)) : k < n ∧ k ≤ avail := by
  unfold readCut at h
  split at h <;> split at h <;> (try split at h) <;> simp at h <;> omega

theorem readCut_none {fault : Option Fault} {avail n : Nat}
    (h : readCut fault avail n = none) : n ≤ avail := by
  unfold readCut at h
  split at h <;> split at h <;> (try split at h) <;> simp at h <;> omega

theorem readCut_clean_eof (avail n : Nat) (h : avail < n) :
    readCut none avail n = some (avail, Error.EOF) := by
  simp [readCut, h]

theorem readCut_clean (avail n : Nat) (h : n ≤ avail) : readCut none avail n = none := by
  simp [readCut]; omega

theorem overwrite_nil (d : List Byte) (w : Nat) : overwrite d w [] = d := by
  simp [overwrite]

/-- Writing at the end of the file appends. -/
theorem overwrite_end (d b : List Byte) : overwrite d d.length b = d ++ b := by
  unfold overwrite
  split
  · rename_i h
    rw [List.length_eq_zero.mp h, List.append_nil]
  · simp

theorem overwrite_length (d : List Byte) (w : Nat) (b : List Byte) :
    (overwrite d w b).length = if b.length = 0 then d.length else max d.length (w + b.length) := by
  unfold overwrite
  split
  · rfl
  · simp only [List.length_append, List.length_take, List.length_replicate, List.length_drop]
    omega

theorem File.SameHandle.self (f : File) : File.SameHandle f f :=
  ⟨Eq.refl _, Eq.refl _, Eq.refl _, Eq.refl _, Eq.refl _, Eq.refl _, Eq.refl _⟩

theorem File.SameHandle.chain {f g h : File} (h1 : File.SameHandle f g)
    (h2 : File.SameHandle g h) : File.SameHandle f h :=
  ⟨h2.closed.trans h1.closed, h2.rfaults.trans h1.rfaults, h2.statErr.trans h1.statErr,
    h2.closeErr.trans h1.closeErr, h2.statSize.trans h1.statSize, h2.mem.trans h1.mem,
    h2.append.trans h1.append⟩

theorem File.Write_file_spec (f : File) (b : List Byte) : File.WriteSpec f b (f.Write b) := by
  have key : ∀ (k : Nat) (e : Option Error), k ≤ b.length → k ≤ maxFileSize - f.writePos →
      (k < b.length → e ≠ none) → f.closed = false →
      File.WriteSpec f b
        ({ f with data := overwrite f.data f.writePos (b.take k), offset := f.writePos + k,
                  wfaults := f.wfaults.tail }, k, e) := by
    intro k e hk hroom hshort hclosed
    have hlen : (overwrite f.data f.writePos (b.take k)).length =
        if k = 0 then f.data.length else max f.data.length (f.writePos + k) := by
      rw [overwrite_length, List.length_take, Nat.min_eq_left hk]
    have hpos : File.writePos
        { f with data := overwrite f.data f.writePos (b.take k), offset := f.writePos + k,
                 wfaults := f.wfaults.tail } = f.writePos + k := by
      unfold File.writePos
      dsimp only
      by_cases ha : f.append = true
      · rw [if_pos ha, if_pos ha, overwrite_end, List.length_append, List.length_take,
          Nat.min_eq_left hk]
      · rw [if_neg ha, if_neg ha]
    have hend : f.atEnd → (overwrite f.data f.writePos (b.take k)) = f.data ++ b.take k := by
      intro h
      rw [show f.writePos = f.data.length from h, overwrite_end]
    refine ⟨Eq.refl _, hend, ?_, hpos, hroom, hk, hshort, ?_, ?_,
      ⟨Eq.refl _, Eq.refl _, Eq.refl _, Eq.refl _, Eq.refl _, Eq.refl _, Eq.refl _⟩⟩
    · intro h
      show File.writePos _ = _
      rw [hpos]
      show _ = (overwrite f.data f.writePos (b.take k)).length
      rw [hend h, List.length_append, List.length_take, Nat.min_eq_left hk,
        show f.writePos = f.data.length from h]
    · intro h
      refine ⟨?_, hclosed⟩
      show k = b.length
      by_contra hne
      exact hshort (by show k < b.length; omega) h
    · intro h
      show (overwrite f.data f.writePos (b.take k)).length ≤ maxFileSize
      rw [hlen]
      split <;> omega
  unfold File.Write
  by_cases hc : f.closed = true
  · rw [if_pos hc]
    refine ⟨?_, ?_, fun h => h, ?_, Nat.zero_le _, Nat.zero_le _, fun _ => by simp, ?_,
      fun h => h, File.SameHandle.self f⟩
    · simp [overwrite_nil]
    · intro _; simp
    · rfl
    · intro h; cases h
  · rw [if_neg hc]
    have hc' : f.closed = false := by simpa using hc
    cases hw : writeCut f.wfaults.head?.join (maxFileSize - f.writePos) b.length with
    | none =>
      have h1 := writeCut_none hw
      have := key b.length none (Nat.le_refl _) h1 (fun h => absurd h (Nat.lt_irrefl _)) hc'
      rw [List.take_length] at this
      exact this
    | some ke =>
      obtain ⟨k, e⟩ := ke
      have h1 := writeCut_some hw
      exact key k (some e) (by omega) h1.2 (fun _ => by simp) hc'

/-! ## The buffered writer -/

theorem Writer.Flush_spec (b : Writer) (f : File) : Writer.FlushSpec b f (b.Flush f) := by
  unfold Writer.Flush
  cases hb : b.err with
  | some e =>
    exact ⟨fun _ => rfl, fun _ => List.prefix_refl _, fun h => h, fun _ => rfl,
      fun h => (by cases h), hb.symm, fun h => (by cases h),
      fun e' he' => (by rw [hb] at he'; cases he'; rfl), fun h => h, Nat.le_refl _,
      fun h => (by cases h), File.SameHandle.self f⟩
  | none =>
    by_cases h0 : b.buf.length = 0
    · have h0' : b.buf = [] := List.length_eq_zero.mp h0
      simp only [h0, if_true]
      exact ⟨fun _ => rfl, fun _ => List.prefix_refl _, fun h => h, fun _ => rfl,
        fun _ => (by rw [h0', overwrite_nil]), hb.symm, fun _ => ⟨h0', hb⟩,
        fun e' he' => (by rw [hb] at he'; cases he'), fun h => h, Nat.le_refl _,
        fun _ hne => absurd h0' hne, File.SameHandle.self f⟩
    · have hs := File.Write_file_spec f b.buf
      simp only [h0, if_false]
      rcases hw : f.Write b.buf with ⟨f1, n, e⟩
      rw [hw] at hs
      have hpos : f1.writePos = f.writePos + n := hs.pos
      have hroom : n ≤ maxFileSize - f.writePos := hs.room
      have hn : n ≤ b.buf.length := hs.n_le
      cases e with
      | some e =>
        simp only [reduceCtorEq, and_false, if_false]
        refine ⟨?_, ?_, hs.atEnd, ?_, fun h => (by cases h), rfl, fun h => (by cases h),
          fun e' he' => (by rw [hb] at he'; cases he'), hs.wf, ?_, fun h => (by cases h), hs.same⟩
        · intro h
          show f1.data ++ b.buf.drop n = f.data ++ b.buf
          rw [show f1.data = f.data ++ b.buf.take n from hs.end_data h, List.append_assoc,
            List.take_append_drop]
        · intro h
          show f.data <+: f1.data
          rw [show f1.data = f.data ++ b.buf.take n from hs.end_data h]
          exact List.prefix_append _ _
        · intro hB
          show (maxFileSize - f1.writePos) + (defaultBufSize - (b.buf.drop n).length) =
            (maxFileSize - f.writePos) + (defaultBufSize - b.buf.length)
          rw [hpos, List.length_drop]
          omega
        · show (b.buf.drop n).length ≤ b.buf.length
          rw [List.length_drop]
          omega
      | none =>
        obtain ⟨h4a, h4b⟩ := hs.ok rfl
        have h4a : n = b.buf.length := h4a
        have hn : ¬ (n < b.buf.length) := by omega
        have hd : f1.data = overwrite f.data f.writePos b.buf := by
          have := hs.data
          rw [show (f1, n, (none : Option Error)).2.1 = n from rfl, h4a, List.take_length] at this
          exact this
        simp only [hn, false_and, if_false]
        refine ⟨?_, ?_, hs.atEnd, ?_, fun _ => hd, rfl, fun _ => ⟨rfl, hb⟩,
          fun e' he' => (by rw [hb] at he'; cases he'), hs.wf, Nat.zero_le _, fun _ _ => h4b,
          hs.same⟩
        · intro h
          show f1.data ++ [] = f.data ++ b.buf
          rw [List.append_nil, hd, show f.writePos = f.data.length from h, overwrite_end]
        · intro h
          show f.data <+: f1.data
          rw [hd, show f.writePos = f.data.length from h, overwrite_end]
          exact List.prefix_append _ _
        · intro hB
          show (maxFileSize - f1.writePos) + (defaultBufSize - ([] : List Byte).length) =
            (maxFileSize - f.writePos) + (defaultBufSize - b.buf.length)
          rw [hpos, List.length_nil]
          omega

theorem WriteLoop.Inv_init (b0 : Writer) (f0 : File) (p0 : List Byte) :
    WriteLoop.Inv b0 f0 p0 { b := b0, f := f0, p := p0, nn := 0 } :=
  ⟨fun _ => by simp, fun _ => List.prefix_refl _, fun h => h, fun _ => rfl, by simp,
    Nat.zero_le _, fun h => h, fun h => h, File.SameHandle.self f0⟩

theorem WriteLoop.cond_iff (st : WriteLoop) :
    st.cond = true ↔ st.p.length > st.b.Available ∧ st.b.err = none := by
  simp [WriteLoop.cond, Option.isNone_iff_eq_none]

theorem WriteLoop.body_inv {b0 : Writer} {f0 : File} {p0 : List Byte} {st : WriteLoop}
    (hI : WriteLoop.Inv b0 f0 p0 st) (hc : st.cond = true) :
    WriteLoop.Inv b0 f0 p0 st.body := by
  obtain ⟨hlen, herr⟩ := (WriteLoop.cond_iff st).mp hc
  have h2 := hI.rest
  have h3 := hI.nn_le
  have hpl : st.p.length = p0.length - st.nn := by rw [h2, List.length_drop]
  unfold WriteLoop.body
  by_cases hb : st.b.Buffered = 0
  · have hb' : st.b.buf = [] := List.length_eq_zero.mp hb
    have hs := File.Write_file_spec st.f st.p
    rw [if_pos hb]
    refine ⟨?_, ?_, fun h => hs.atEnd (hI.atEnd h), ?_, ?_, ?_, fun h => hs.wf (hI.wf h),
      hI.buf_le, hI.same.chain hs.same⟩
    · intro h
      have h1 := hI.content h
      show (st.f.Write st.p).1.data ++ st.b.buf = _
      rw [hs.end_data (hI.atEnd h), hb', List.append_nil, List.take_add, ← List.append_assoc,
        ← h1, hb', List.append_nil, h2]
    · intro h
      exact (hI.grow h).trans (by rw [hs.end_data (hI.atEnd h)]; exact List.prefix_append _ _)
    · intro hB
      have h4 := hI.head hB
      have hpos := hs.pos
      have hroom := hs.room
      show (maxFileSize - (st.f.Write st.p).1.writePos) + (defaultBufSize - st.b.buf.length) +
        (st.nn + (st.f.Write st.p).2.1) = headroom f0 b0
      rw [← h4, hpos]
      show _ = (maxFileSize - st.f.writePos) + (defaultBufSize - st.b.buf.length) + st.nn
      omega
    · show st.p.drop (st.f.Write st.p).2.1 = p0.drop (st.nn + (st.f.Write st.p).2.1)
      rw [h2, List.drop_drop, Nat.add_comm]
    · show st.nn + (st.f.Write st.p).2.1 ≤ p0.length
      have := hs.n_le
      omega
  · rw [if_neg hb]
    have hav : min st.b.Available st.p.length = st.b.Available := Nat.min_eq_left (by omega)
    have hs := Writer.Flush_spec { st.b with buf := st.b.buf ++ st.p.take st.b.Available } st.f
    simp only [hav]
    have hbl : ({ st.b with buf := st.b.buf ++ st.p.take st.b.Available } : Writer).buf.length =
        st.b.buf.length + st.b.Available := by
      show (st.b.buf ++ st.p.take st.b.Available).length = _
      rw [List.length_append, List.length_take, Nat.min_eq_left (by omega)]
    refine ⟨?_, fun h => (hI.grow h).trans (hs.grow (hI.atEnd h)),
      fun h => hs.atEnd (hI.atEnd h), ?_, ?_, ?_, fun h => hs.wf (hI.wf h), ?_,
      hI.same.chain hs.same⟩
    · intro h
      have h1 := hI.content h
      show _ = f0.data ++ b0.buf ++ p0.take (st.nn + st.b.Available)
      rw [hs.content (hI.atEnd h), List.take_add, ← List.append_assoc (f0.data ++ b0.buf), ← h1,
        h2, List.append_assoc]
    · intro hB
      have h4 := hI.head hB
      have h6 := hI.buf_le hB
      have h5 := hs.head (by rw [hbl]; simp only [Writer.Available]; omega)
      show headroom _ _ + (st.nn + st.b.Available) = headroom f0 b0
      rw [h5, ← h4]
      show (maxFileSize - st.f.writePos) + (defaultBufSize - _) + _ =
        (maxFileSize - st.f.writePos) + (defaultBufSize - st.b.buf.length) + st.nn
      rw [hbl]
      simp only [Writer.Available]
      omega
    · show st.p.drop st.b.Available = p0.drop (st.nn + st.b.Available)
      rw [h2, List.drop_drop, Nat.add_comm]
    · show st.nn + st.b.Available ≤ p0.length
      omega
    · intro h
      have h6' := hI.buf_le h
      have := hs.buf_le
      rw [hbl] at this
      simp only [Writer.Available] at this hlen ⊢
      omega

theorem WriteLoop.body_post {st : WriteLoop} (hc : st.cond = true)
    (he : st.body.b.err = none) : st.body.p = [] ∨ st.body.b.buf = [] := by
  obtain ⟨hlen, herr⟩ := (WriteLoop.cond_iff st).mp hc
  unfold WriteLoop.body at he ⊢
  by_cases hb : st.b.Buffered = 0
  · rw [if_pos hb] at he ⊢
    have hs := File.Write_file_spec st.f st.p
    left
    show st.p.drop _ = []
    rw [(hs.ok he).1]
    exact List.drop_length _
  · rw [if_neg hb] at he ⊢
    right
    have hs := Writer.Flush_spec
      { st.b with buf := st.b.buf ++ st.p.take (min st.b.Available st.p.length) } st.f
    exact (hs.ok (hs.err.trans he)).1

theorem WriteLoop.cond_of_nil {st : WriteLoop} (h : st.p = []) : st.cond = false := by
  simp [WriteLoop.cond, h]

theorem WriteLoop.cond_body_of_empty {st : WriteLoop} (hb : st.b.buf = []) :
    st.body.cond = false := by
  cases he : st.body.b.err with
  | some e => simp [WriteLoop.cond, he]
  | none =>
    apply WriteLoop.cond_of_nil
    have hs := File.Write_file_spec st.f st.p
    have hb' : st.b.Buffered = 0 := by simp [Writer.Buffered, hb]
    unfold WriteLoop.body at he ⊢
    rw [if_pos hb'] at he ⊢
    show st.p.drop _ = []
    rw [(hs.ok he).1]
    exact List.drop_length _

theorem WriteLoop.cond_body_body {st : WriteLoop} (hc : st.cond = true)
    (hc1 : st.body.cond = true) : st.body.body.cond = false := by
  obtain ⟨_, herr⟩ := (WriteLoop.cond_iff st.body).mp hc1
  rcases WriteLoop.body_post hc herr with h | h
  · rw [WriteLoop.cond_of_nil h] at hc1
    cases hc1
  · exact WriteLoop.cond_body_of_empty h

theorem WriteLoop.run_of_not_cond (k : Nat) {st : WriteLoop} (h : st.cond = false) :
    WriteLoop.run k st = st := by
  cases k with
  | zero => rfl
  | succ k => simp [WriteLoop.run, h]

/-- Two rounds are all the loop of `Writer.Write` ever makes: more fuel changes nothing. -/
theorem WriteLoop.run_stable (k : Nat) (st : WriteLoop) :
    WriteLoop.run (k + 2) st = WriteLoop.run 2 st := by
  cases hc : st.cond with
  | false => rw [WriteLoop.run_of_not_cond _ hc, WriteLoop.run_of_not_cond _ hc]
  | true =>
    cases hc1 : st.body.cond with
    | false => simp [WriteLoop.run, hc, hc1, WriteLoop.run_of_not_cond]
    | true =>
      have hc2 := WriteLoop.cond_body_body hc hc1
      simp [WriteLoop.run, hc, hc1, WriteLoop.run_of_not_cond _ hc2]

/-- After two rounds the condition of the loop is false: the loop has ended. -/
theorem WriteLoop.run_exit (st : WriteLoop) : (WriteLoop.run 2 st).cond = false := by
  cases hc : st.cond with
  | false => rw [WriteLoop.run_of_not_cond _ hc, hc]
  | true =>
    cases hc1 : st.body.cond with
    | false => simp [WriteLoop.run, hc, hc1]
    | true => simp [WriteLoop.run, hc, hc1, WriteLoop.cond_body_body hc hc1]

theorem WriteLoop.run_inv {b0 : Writer} {f0 : File} {p0 : List Byte} (k : Nat) :
    ∀ {st : WriteLoop}, WriteLoop.Inv b0 f0 p0 st → WriteLoop.Inv b0 f0 p0 (WriteLoop.run k st) := by
  induction k with
  | zero => intro st h; exact h
  | succ k ih =>
    intro st h
    unfold WriteLoop.run
    split
    · rename_i hc
      exact ih (WriteLoop.body_inv h hc)
    · exact h

theorem WriteLoop.run_sticky (k : Nat) {st : WriteLoop} {e : Error} (h : st.b.err = some e) :
    WriteLoop.run k st = st := by
  apply WriteLoop.run_of_not_cond
  simp [WriteLoop.cond, h]

theorem Writer.Write_spec (b : Writer) (f : File) (p : List Byte) :
    Writer.WriteSpec b f p (b.Write f p) := by
  have hI := WriteLoop.run_inv 2 (WriteLoop.Inv_init b f p)
  have hX := WriteLoop.run_exit { b := b, f := f, p := p, nn := 0 }
  have hS : ∀ e, b.err = some e →
      WriteLoop.run 2 { b := b, f := f, p := p, nn := 0 } = { b := b, f := f, p := p, nn := 0 } :=
    fun e he => WriteLoop.run_sticky 2 he
  unfold Writer.Write
  generalize WriteLoop.run 2 { b := b, f := f, p := p, nn := 0 } = st at hI hX hS
  have h2 := hI.rest
  have h3 := hI.nn_le
  have hpl : st.p.length = p.length - st.nn := by rw [h2, List.length_drop]
  dsimp only
  cases he : st.b.err with
  | some e =>
    dsimp only
    refine ⟨hI.content, hI.grow, hI.atEnd, hI.head, h3, he.symm, ?_, ?_, hI.wf, hI.buf_le,
      hI.same⟩
    · intro h; cases h
    · intro e' he'
      have := hS e' he'
      subst this
      simp only at he
      rw [he'] at he
      cases he
      rfl
  | none =>
    dsimp only
    have hle : st.p.length ≤ st.b.Available := by
      by_contra hlt
      have : st.cond = true := (WriteLoop.cond_iff st).mpr ⟨by omega, he⟩
      rw [hX] at this
      cases this
    have hmin : min st.b.Available st.p.length = st.p.length := Nat.min_eq_right hle
    simp only [hmin]
    have htake : st.p.take st.p.length = st.p := List.take_length _
    refine ⟨?_, hI.grow, hI.atEnd, ?_, ?_, ?_, ?_, ?_, hI.wf, ?_, hI.same⟩
    · intro h
      have h1 := hI.content h
      show st.f.data ++ (st.b.buf ++ st.p.take st.p.length) = _
      rw [htake, ← List.append_assoc, h1, hpl, h2]
      have : st.nn + (p.length - st.nn) = p.length := by omega
      rw [this, List.take_length, List.append_assoc, List.take_append_drop]
    · intro hB
      have h4 := hI.head hB
      have h6 := hI.buf_le hB
      show (maxFileSize - st.f.writePos) +
        (defaultBufSize - (st.b.buf ++ st.p.take st.p.length).length) + (st.nn + st.p.length) =
          headroom f b
      rw [← h4, htake, List.length_append]
      show _ = (maxFileSize - st.f.writePos) + (defaultBufSize - st.b.buf.length) + st.nn
      simp only [Writer.Available] at hle
      omega
    · show st.nn + st.p.length ≤ p.length
      omega
    · rfl
    · intro _
      refine ⟨by show st.nn + st.p.length = p.length; omega, ?_⟩
      cases hb : b.err with
      | none => rfl
      | some e' =>
        have := hS e' hb
        subst this
        simp only at he
        rw [hb] at he
        cases he
    · intro e' he'
      have := hS e' he'
      subst this
      simp only at he
      rw [he'] at he
      cases he
    · intro h
      have := hI.buf_le h
      show (st.b.buf ++ st.p.take st.p.length).length ≤ defaultBufSize
      rw [htake, List.length_append]
      simp only [Writer.Available] at hle
      omega

theorem binary.Write_eq (b : Writer) (f : File) (v : Nat) :
    binary.Write b f v = ((b.Write f (enc.PutUint64 v)).1, (b.Write f (enc.PutUint64 v)).2.1,
      (b.Write f (enc.PutUint64 v)).2.2.2) := rfl

/-! ## Positional reads -/

theorem File.ReadKeeps.refl (f : File) : File.ReadKeeps f f :=
  ⟨Eq.refl _, Eq.refl _, Eq.refl _, fun h => h, Eq.refl _, Eq.refl _, Eq.refl _, Eq.refl _,
    Eq.refl _, fun h => h⟩

theorem File.ReadKeeps.comp {f g h : File} (h1 : File.ReadKeeps f g)
    (h2 : File.ReadKeeps g h) : File.ReadKeeps f h :=
  ⟨h2.data.trans h1.data, h2.offset.trans h1.offset, h2.append.trans h1.append,
    fun hc => h2.closed (h1.closed hc), h2.statSize.trans h1.statSize,
    h2.statErr.trans h1.statErr, h2.closeErr.trans h1.closeErr, h2.wfaults.trans h1.wfaults,
    h2.mem.trans h1.mem, fun hr => h2.rfaults (h1.rfaults hr)⟩

theorem File.ReadKeeps.writePos {f g : File} (h : File.ReadKeeps f g) :
    g.writePos = f.writePos := by
  unfold File.writePos
  rw [h.append, h.data, h.offset]

theorem File.ReadKeeps.atEnd {f g : File} (h : File.ReadKeeps f g) (he : f.atEnd) : g.atEnd := by
  unfold File.atEnd at he ⊢
  rw [h.writePos, h.data]
  exact he

theorem File.ReadAt_file (f : File) (b : List Byte) (off : Int) :
    File.ReadKeeps f (f.ReadAt b off).1 ∧ (f.ReadAt b off).1.closed = f.closed := by
  have ht : (∀ x ∈ f.rfaults, x = none) → ∀ x ∈ f.rfaults.tail, x = none :=
    fun h x hx => h x (List.mem_of_mem_tail hx)
  have hk : File.ReadKeeps f { f with rfaults := f.rfaults.tail } :=
    ⟨rfl, rfl, rfl, fun h => h, rfl, rfl, rfl, rfl, rfl, ht⟩
  unfold File.ReadAt
  split
  · exact ⟨File.ReadKeeps.refl f, rfl⟩
  · split
    · exact ⟨File.ReadKeeps.refl f, rfl⟩
    · split
      · exact ⟨File.ReadKeeps.refl f, rfl⟩
      · split
        · exact ⟨File.ReadKeeps.refl f, rfl⟩
        · dsimp only
          split <;> exact ⟨hk, rfl⟩

theorem File.head_clean {l : List (Option Fault)} (h : ∀ x ∈ l, x = none) :
    l.head?.join = none := by
  cases l with
  | nil => rfl
  | cons x t =>
    have := h x (List.mem_cons_self _ _)
    subst this
    rfl

theorem File.ReadAt_readsDoNotFail (f : File) (b : List Byte) (off : Int)
    (hr : f.readsDoNotFail) : (f.ReadAt b off).1.readsDoNotFail :=
  ⟨(File.ReadAt_file f b off).2.trans hr.1, (File.ReadAt_file f b off).1.rfaults hr.2⟩

/-- An undisturbed read of bytes that all lie in the file returns them. -/
theorem File.ReadAt_clean (f : File) (b : List Byte) (off : Nat) (hr : f.readsDoNotFail)
    (hmax : f.data.length ≤ maxFileSize) (hle : off + b.length ≤ f.data.length) :
    (f.ReadAt b (off : Int)).2 = ((f.data.drop off).take b.length, b.length, none) := by
  unfold File.ReadAt
  have h0 : ¬ ((off : Int) < 0) := by omega
  rw [if_neg h0]
  by_cases hb : b.length = 0
  · rw [if_pos hb]
    have : b = [] := List.length_eq_zero.mp hb
    subst this
    simp
  · rw [if_neg hb]
    have hc : ¬ (f.closed = true) := by simp [hr.1]
    rw [if_neg hc, Int.toNat_ofNat, if_neg (by omega)]
    dsimp only
    rw [File.head_clean hr.2]
    have hlen : ((f.data.drop off).take b.length).length = b.length := by
      rw [List.length_take, List.length_drop]; omega
    rw [hlen, readCut_clean _ _ (le_refl _)]

/-- An undisturbed read that runs past the end of the file, and not past the largest file
offset, returns the bytes there are, and the error `io.EOF`. -/
theorem File.ReadAt_eof (f : File) (b : List Byte) (off : Nat) (hr : f.readsDoNotFail)
    (hb : b ≠ []) (hlt : f.data.length < off + b.length) (hmax : off + b.length ≤ maxFileSize) :
    (f.ReadAt b (off : Int)).2 =
      (f.data.drop off ++ b.drop (f.data.length - off), f.data.length - off, some Error.EOF) := by
  unfold File.ReadAt
  have h0 : ¬ ((off : Int) < 0) := by omega
  rw [if_neg h0]
  have hb' : ¬ (b.length = 0) := fun h => hb (List.length_eq_zero.mp h)
  rw [if_neg hb']
  have hc : ¬ (f.closed = true) := by simp [hr.1]
  rw [if_neg hc, Int.toNat_ofNat, if_neg (by omega)]
  dsimp only
  rw [File.head_clean hr.2]
  have hlen : ((f.data.drop off).take b.length).length = f.data.length - off := by
    rw [List.length_take, List.length_drop]; omega
  have htk : (f.data.drop off).take b.length = f.data.drop off := by
    apply List.take_of_length_le
    rw [List.length_drop]; omega
  rw [hlen, readCut_clean_eof _ _ (by omega)]
  dsimp only
  rw [htk, List.take_of_length_le (by rw [List.length_drop])]

/-- A read of a range that ends past the largest file offset is refused: on an open handle it
returns no byte and the error `EINVAL`, whatever the file holds. -/
theorem File.ReadAt_einval (f : File) (b : List Byte) (off : Nat) (hc : f.closed = false)
    (hb : b ≠ []) (hmax : maxFileSize < off + b.length) :
    (f.ReadAt b (off : Int)).2 = (b, 0, some Error.EINVAL) := by
  unfold File.ReadAt
  have h0 : ¬ ((off : Int) < 0) := by omega
  have hb' : ¬ (b.length = 0) := fun h => hb (List.length_eq_zero.mp h)
  have hc' : ¬ (f.closed = true) := by simp [hc]
  rw [if_neg h0, if_neg hb', if_neg hc', Int.toNat_ofNat, if_pos (by omega)]

/-- A read that returns no error has read `len(b)` bytes, all of them from the file. -/
theorem File.ReadAt_ok (f : File) (b : List Byte) (off : Int)
    (h : (f.ReadAt b off).2.2.2 = none) :
    0 ≤ off ∧ (f.ReadAt b off).2.1 = (f.data.drop off.toNat).take b.length ∧
      (f.ReadAt b off).2.2.1 = b.length ∧
      (b ≠ [] → off.toNat + b.length ≤ f.data.length ∧ f.closed = false ∧
        off.toNat + b.length ≤ maxFileSize) := by
  unfold File.ReadAt at h ⊢
  by_cases h0 : off < 0
  · rw [if_pos h0] at h; cases h
  · rw [if_neg h0] at h ⊢
    by_cases hb : b.length = 0
    · rw [if_pos hb]
      have : b = [] := List.length_eq_zero.mp hb
      subst this
      simp; omega
    · rw [if_neg hb] at h ⊢
      by_cases hc : f.closed = true
      · rw [if_pos hc] at h; cases h
      · rw [if_neg hc] at h ⊢
        by_cases hm : off.toNat + b.length > maxFileSize
        · rw [if_pos hm] at h; cases h
        · rw [if_neg hm] at h ⊢
          dsimp only at h ⊢
          cases hcut : readCut f.rfaults.head?.join
              ((f.data.drop off.toNat).take b.length).length b.length with
          | some ke => rw [hcut] at h; cases h
          | none =>
            have h1 := readCut_none hcut
            rw [List.length_take, List.length_drop] at h1
            refine ⟨by omega, rfl, rfl, fun _ => ⟨by omega, by simpa using hc, by omega⟩⟩

/-- A read of a non-empty buffer that runs past the end of the file returns an error, whatever
the environment does. -/
theorem File.ReadAt_past_end (f : File) (b : List Byte) (off : Int) (hb : b ≠ [])
    (hlt : off < 0 ∨ (f.data.length : Int) < off + b.length) :
    (f.ReadAt b off).2.2.2 ≠ none := by
  intro h
  have h1 := File.ReadAt_ok f b off h
  have h2 := (h1.2.2.2 hb).1
  omega

/-! ## The store -/

theorem List.prefix_of_append_take {α : Type} (a b c : List α) (k : Nat) (h : c = a ++ b.take k) :
    a <+: c := by
  rw [h]; exact List.prefix_append _ _

theorem store.Append_spec (s : store) (p : List Byte) : store.AppendSpec s p (s.Append p) := by
  have h1 := Writer.Write_spec s.buf s.file (enc.PutUint64 (uint64 p.length))
  unfold store.Append
  dsimp only
  rw [binary.Write_eq]
  dsimp only
  generalize s.buf.Write s.file (enc.PutUint64 (uint64 p.length)) = r1 at h1
  obtain ⟨b1, f1, n1, e1⟩ := r1
  dsimp only at h1 ⊢
  have hh1 := h1.head
  dsimp only at hh1
  cases e1 with
  | some e =>
    dsimp only
    refine ⟨?_, h1.grow, h1.atEnd, ?_, ?_, ?_, h1.err, ?_, ?_, ?_, h1.wf, h1.buf_le, h1.same⟩
    · intro h
      exact List.prefix_of_append_take _ _ _ _ (h1.content h)
    · intro _ h; cases h
    · intro hB
      have := hh1 hB
      show headroom f1 b1 ≤ _
      omega
    · intro _ h; cases h
    · intro e' _; exact ⟨rfl, rfl, rfl⟩
    · intro h; cases h
    · intro e' he'
      have := h1.sticky e' he'
      simp only [Prod.mk.injEq] at this
      obtain ⟨hb, hf, _, he1⟩ := this
      subst hb hf
      cases he1
      rfl
  | none =>
    have h2 := Writer.Write_spec b1 f1 p
    dsimp only
    generalize b1.Write f1 p = r2 at h2
    obtain ⟨b2, f2, n2, e2⟩ := r2
    dsimp only at h2 ⊢
    have hh2 := h2.head
    dsimp only at hh2
    have hn1 := (h1.ok rfl)
    dsimp only at hn1
    have hn1' : n1 = 8 := hn1.1
    have hc1 : s.file.atEnd →
        f1.data ++ b1.buf = s.content ++ enc.PutUint64 (uint64 p.length) := by
      intro h
      have := h1.content h
      dsimp only at this
      rw [this, hn1.1, List.take_length]
      rfl
    cases e2 with
    | some e =>
      dsimp only
      refine ⟨?_, fun h => (h1.grow h).trans (h2.grow (h1.atEnd h)),
        fun h => h2.atEnd (h1.atEnd h), ?_, ?_, ?_, h2.err, ?_, ?_, ?_,
        fun h => h2.wf (h1.wf h), fun h => h2.buf_le (h1.buf_le h), h1.same.chain h2.same⟩
      · intro h
        have := h2.content (h1.atEnd h)
        dsimp only at this
        show s.content <+: f2.data ++ b2.buf
        rw [this, hc1 h, List.append_assoc]
        exact List.prefix_append _ _
      · intro _ h; cases h
      · intro hB
        have a1 := hh1 hB
        have a2 := hh2 (h1.buf_le hB)
        show headroom f2 b2 ≤ _
        omega
      · intro _ h; cases h
      · intro e' _; exact ⟨rfl, rfl, rfl⟩
      · intro h; cases h
      · intro e' he'
        rw [hn1.2] at he'
        cases he'
    | none =>
      dsimp only
      have hn2 := (h2.ok rfl)
      dsimp only at hn2
      have hc2 : s.file.atEnd →
          f2.data ++ b2.buf = s.content ++ (enc.PutUint64 (uint64 p.length) ++ p) := by
        intro h
        have := h2.content (h1.atEnd h)
        dsimp only at this
        rw [this, hn2.1, List.take_length, hc1 h, List.append_assoc]
      refine ⟨?_, fun h => (h1.grow h).trans (h2.grow (h1.atEnd h)),
        fun h => h2.atEnd (h1.atEnd h), fun h _ => hc2 h, ?_, ?_, h2.err, ?_, ?_, ?_,
        fun h => h2.wf (h1.wf h), fun h => h2.buf_le (h1.buf_le h), h1.same.chain h2.same⟩
      · intro h
        show s.content <+: f2.data ++ b2.buf
        rw [hc2 h]
        exact List.prefix_append _ _
      · intro hB
        have a1 := hh1 hB
        have a2 := hh2 (h1.buf_le hB)
        show headroom f2 b2 ≤ _
        omega
      · intro hB _
        have a1 := hh1 hB
        have a2 := hh2 (h1.buf_le hB)
        have a3 := hn2.1
        show headroom f2 b2 + (p.length + lenWidth) = _
        simp only [lenWidth]
        omega
      · intro e' h; cases h
      · intro _
        refine ⟨hn1.2, ?_, rfl, ?_⟩
        · show uint64 (n2 + lenWidth) = _
          rw [hn2.1]
        · show (s.size + uint64 (n2 + lenWidth)) % 2 ^ 64 = _
          rw [hn2.1]
      · intro e' he'
        rw [hn1.2] at he'
        cases he'

/-- A successful `Append` in a state the types allow hands over a whole frame, and the frame
fits in what the file and the buffer can still take. -/
theorem store.Append_ok_room {s : store} {p : List Byte} (hwf : s.WF)
    (hok : (s.Append p).2.2.2 = none) :
    p.length + lenWidth ≤ headroom s.file s.buf ∧
      headroom s.file s.buf ≤ maxFileSize + defaultBufSize := by
  have hs := store.Append_spec s p
  have h1 := hs.head_ok hwf.2 hok
  refine ⟨by omega, ?_⟩
  unfold headroom
  omega

/-- A successful `Append` on a handle at the end of the file adds a whole frame, and no counter
wraps: the frame fits in what the file and the buffer can hold. -/
theorem store.Append_ok_bound {s : store} {p : List Byte} (hwf : s.WF) (hend : s.file.atEnd)
    (hok : (s.Append p).2.2.2 = none) :
    s.content.length + lenWidth + p.length ≤ maxFileSize + defaultBufSize := by
  have h1 := (store.Append_ok_room hwf hok).1
  have h2 : s.file.writePos = s.file.data.length := hend
  have h3 := hwf.1
  have h4 := hwf.2
  simp only [store.content, List.length_append, headroom, h2] at h1 ⊢
  omega

theorem store.ReadEffect_of_flush (s : store) (f : File)
    (hk : File.ReadKeeps (s.buf.Flush s.file).2.1 f) :
    store.ReadEffect s { s with buf := (s.buf.Flush s.file).1, file := f } := by
  have h := Writer.Flush_spec s.buf s.file
  have hdata : f.data = (s.buf.Flush s.file).2.1.data := hk.data
  have hflend : s.file.atEnd → (s.buf.Flush s.file).2.2 = none → f.data = s.content := by
    intro hend he
    have := h.content hend
    rw [(h.ok he).1, List.append_nil] at this
    rw [hdata, this]; rfl
  refine ⟨rfl, ?_, ?_, fun he => hk.atEnd (h.atEnd he), ?_, h.err, ?_, hflend, ?_, ?_, h.buf_le,
    fun hx => hk.closed (h.same.closed.trans hx), ?_, hk.statErr.trans h.same.statErr,
    hk.closeErr.trans h.same.closeErr, hk.statSize.trans h.same.statSize,
    hk.mem.trans h.same.mem, hk.append.trans h.same.append⟩
  · intro he
    show f.data ++ _ = _
    rw [hdata, h.content he]; rfl
  · intro he
    show _ <+: f.data
    rw [hdata]; exact h.grow he
  · intro hB
    have := h.head hB
    show (maxFileSize - f.writePos) + _ = _
    rw [hk.writePos]
    exact this
  · intro he
    refine ⟨(h.ok he).1, ?_⟩
    show f.data = _
    rw [hdata, h.data he]
  · intro e he
    have := h.sticky e he
    refine ⟨?_, ?_⟩
    · show (s.buf.Flush s.file).1 = _
      rw [this]
    · show f.data = _
      rw [hdata, this]
  · intro hle
    show f.data.length ≤ _
    rw [hdata]; exact h.wf hle
  · intro hx
    apply hk.rfaults
    rw [h.same.rfaults]; exact hx

theorem store.Read_effect (s : store) (pos : Nat) : store.ReadEffect s (s.Read pos).1 := by
  unfold store.Read
  dsimp only
  split
  · exact store.ReadEffect_of_flush s _ (File.ReadKeeps.refl _)
  · have h1 := (File.ReadAt_file (s.buf.Flush s.file).2.1 (List.replicate lenWidth 0)
      (int64 pos)).1
    split
    · exact store.ReadEffect_of_flush s _ h1
    · split
      · exact store.ReadEffect_of_flush s _ h1
      · split
        · exact store.ReadEffect_of_flush s _ h1
        · have h2 := (File.ReadAt_file
            ((s.buf.Flush s.file).2.1.ReadAt (List.replicate lenWidth 0) (int64 pos)).1
            (List.replicate (enc.Uint64
              ((s.buf.Flush s.file).2.1.ReadAt (List.replicate lenWidth 0) (int64 pos)).2.1) 0)
            (int64 ((pos + lenWidth) % 2 ^ 64))).1
          split <;> exact store.ReadEffect_of_flush s _ (h1.comp h2)

theorem store.ReadAt_effect (s : store) (p : List Byte) (off : Int) :
    store.ReadEffect s (s.ReadAt p off).1 := by
  unfold store.ReadAt
  dsimp only
  split
  · exact store.ReadEffect_of_flush s _ (File.ReadKeeps.refl _)
  · exact store.ReadEffect_of_flush s _ (File.ReadAt_file (s.buf.Flush s.file).2.1 p off).1

theorem File.Close_keeps (f : File) : File.ReadKeeps f f.Close.1 := by
  unfold File.Close
  split
  · exact File.ReadKeeps.refl f
  · exact ⟨rfl, rfl, rfl, fun _ => rfl, rfl, rfl, rfl, rfl, rfl, fun h => h⟩

theorem store.Close_effect (s : store) : store.ReadEffect s s.Close.1 := by
  unfold store.Close
  dsimp only
  split
  · exact store.ReadEffect_of_flush s _ (File.ReadKeeps.refl _)
  · exact store.ReadEffect_of_flush s _ (File.Close_keeps _)

/-- When `Close` returns no error, the flush inside it has succeeded. -/
theorem store.Close_ok_flush (s : store) (h : s.Close.2 = none) :
    (s.buf.Flush s.file).2.2 = none := by
  unfold store.Close at h
  dsimp only at h
  cases hf : (s.buf.Flush s.file).2.2 with
  | none => rfl
  | some e => rw [hf] at h; cases h

/-- When the flush fails, `Read` returns the error of the flush. -/
theorem store.Read_flush_error (s : store) (pos : Nat) (e : Error)
    (h : (s.buf.Flush s.file).2.2 = some e) : (s.Read pos).2 = ReadResult.error e := by
  unfold store.Read
  dsimp only
  rw [h]

/-! ## Invariants of the reachable stores -/

theorem newStore_ok {f : File} {s : store} (h : newStore f = .ok s) :
    f.statErr = none ∧ s = { file := f, buf := NewWriter, size := uint64 f.statSize } := by
  unfold newStore File.Stat at h
  cases hs : f.statErr with
  | some e => rw [hs] at h; cases h
  | none =>
    rw [hs] at h
    simp only [Except.ok.injEq, Int.toNat_ofNat] at h
    exact ⟨rfl, h.symm⟩

theorem uint64_of_lt {n : Nat} (h : n < 2 ^ 64) : uint64 n = n := Nat.mod_eq_of_lt h

theorem uint64_le (n : Nat) : uint64 n ≤ n := Nat.mod_le _ _

theorem newStore_good {f : File} {s : store} (hf : f.Fits) (h : newStore f = .ok s) :
    s.Good ∧ s.buf = NewWriter ∧ s.file = f := by
  obtain ⟨_, rfl⟩ := newStore_ok h
  refine ⟨⟨⟨hf.1, by simp [NewWriter]⟩, ?_⟩, rfl, rfl⟩
  have h1 := uint64_le f.statSize
  have h2 := hf.2
  show uint64 f.statSize + ((maxFileSize - f.writePos) +
    (defaultBufSize - ([] : List Byte).length)) < 2 ^ 64
  rw [List.length_nil]
  omega

theorem store.SizeInv_iff (s : store) : s.SizeInv ↔ s.size = s.content.length := by
  simp [store.SizeInv, store.content]

/-- Over a file whose stat reports its length and whose handle is at its end, `newStore` gives
a store in which the size counter is the length of the file. -/
theorem newStore_tidy {f : File} {s : store} (hf : f.data.length ≤ maxFileSize)
    (hend : f.atEnd) (hstat : f.statSize = f.data.length) (h : newStore f = .ok s) :
    s.Tidy ∧ s.SizeInv ∧ s.buf = NewWriter ∧ s.file = f := by
  obtain ⟨_, rfl⟩ := newStore_ok h
  have hmf : maxFileSize = 2 ^ 63 - 1 := rfl
  have hu : uint64 f.statSize = f.data.length := by
    rw [hstat]; exact Nat.mod_eq_of_lt (by omega)
  have hsz : store.SizeInv { file := f, buf := NewWriter, size := uint64 f.statSize } := by
    simp [store.SizeInv, NewWriter, hu]
  exact ⟨⟨⟨hf, by simp [NewWriter]⟩, hend, fun _ => hsz⟩, hsz, rfl, rfl⟩

/-- A successful `Append` on a good store: the count is the length of the frame, the position
is the size before the call, and the size grows by the length of the frame, without
wrapping. -/
theorem store.Append_ok_size {s : store} {p : List Byte} (hg : s.Good)
    (hok : (s.Append p).2.2.2 = none) :
    (s.Append p).2.1 = lenWidth + p.length ∧ (s.Append p).2.2.1 = s.size ∧
      (s.Append p).1.size = s.size + (lenWidth + p.length) := by
  have hs := store.Append_spec s p
  obtain ⟨_, hu, hpos, hsize⟩ := hs.ok hok
  have hb := store.Append_ok_room hg.1 hok
  have hg2 := hg.2
  have hmf : maxFileSize = 2 ^ 63 - 1 := rfl
  have hbs : defaultBufSize = 4096 := rfl
  have hu1 : uint64 (p.length + lenWidth) = lenWidth + p.length := by
    unfold uint64; rw [Nat.mod_eq_of_lt (by omega)]; omega
  refine ⟨by rw [hu, hu1], hpos, ?_⟩
  rw [hsize, hu1, Nat.mod_eq_of_lt (by omega)]

/-- A successful `Append` on a tidy store: the position is the length of the logical content,
the size grows by the length of the frame, without wrapping, and the frame is added to the
logical content. -/
theorem store.Append_ok_tidy {s : store} {p : List Byte} (hg : s.Tidy)
    (hok : (s.Append p).2.2.2 = none) :
    s.SizeInv ∧ (s.Append p).1.SizeInv ∧ (s.Append p).2.2.1 = s.content.length ∧
      (s.Append p).2.1 = lenWidth + p.length ∧
      (s.Append p).1.size = s.size + (lenWidth + p.length) ∧
      (s.Append p).1.content = s.content ++ frame p := by
  have hs := store.Append_spec s p
  obtain ⟨herr, hu, hpos, hsize⟩ := hs.ok hok
  have hc := hs.ok_content hg.2.1 hok
  have hsz := hg.2.2 herr
  have hb := store.Append_ok_bound hg.1 hg.2.1 hok
  have hmf : maxFileSize = 2 ^ 63 - 1 := rfl
  have hbs : defaultBufSize = 4096 := rfl
  have hsz' := (store.SizeInv_iff s).mp hsz
  have hlw : lenWidth = 8 := rfl
  have hu1 : uint64 (p.length + lenWidth) = lenWidth + p.length := by
    unfold uint64; rw [Nat.mod_eq_of_lt (by omega)]; omega
  have hsize' : (s.Append p).1.size = s.size + (lenWidth + p.length) := by
    rw [hsize, hu1, Nat.mod_eq_of_lt (by omega)]
  refine ⟨hsz, ?_, by rw [hpos, hsz'], by rw [hu, hu1], hsize', hc⟩
  rw [store.SizeInv_iff, hsize', hc, hsz']
  simp [enc.PutUint64_length, lenWidth]

theorem step_effect (s : store) (op : Op) (h : ∀ p, op ≠ Op.append p) :
    store.ReadEffect s (step s op) := by
  cases op with
  | append p => exact absurd rfl (h p)
  | read pos => exact store.Read_effect s pos
  | readAt p off => exact store.ReadAt_effect s p off
  | close => exact store.Close_effect s

theorem store.WF_step {s : store} (hg : s.WF) (op : Op) : (step s op).WF := by
  cases op with
  | append p =>
    have hs := store.Append_spec s p
    exact ⟨hs.wf hg.1, hs.buf_le hg.2⟩
  | read pos =>
    have h := store.Read_effect s pos
    exact ⟨h.wf hg.1, le_trans h.buf_le hg.2⟩
  | readAt p off =>
    have h := store.ReadAt_effect s p off
    exact ⟨h.wf hg.1, le_trans h.buf_le hg.2⟩
  | close =>
    have h := store.Close_effect s
    exact ⟨h.wf hg.1, le_trans h.buf_le hg.2⟩

theorem store.atEnd_step {s : store} (hg : s.file.atEnd) (op : Op) : (step s op).file.atEnd := by
  cases op with
  | append p => exact (store.Append_spec s p).atEnd hg
  | read pos => exact (store.Read_effect s pos).atEnd hg
  | readAt p off => exact (store.ReadAt_effect s p off).atEnd hg
  | close => exact (store.Close_effect s).atEnd hg

theorem store.WF_run {s : store} (hg : s.WF) (ops : List Op) : (run s ops).WF := by
  induction ops generalizing s with
  | nil => exact hg
  | cons op ops ih => exact ih (store.WF_step hg op)

theorem store.atEnd_run {s : store} (hg : s.file.atEnd) (ops : List Op) :
    (run s ops).file.atEnd := by
  induction ops generalizing s with
  | nil => exact hg
  | cons op ops ih => exact ih (store.atEnd_step hg op)

theorem store.Good_step {s : store} (hg : s.Good) (op : Op) : (step s op).Good := by
  refine ⟨store.WF_step hg.1 op, ?_⟩
  have hg2 := hg.2
  by_cases happ : ∀ p, op ≠ Op.append p
  · have h := step_effect s op happ
    rw [h.size, h.head hg.1.2]
    exact hg2
  · push_neg at happ
    obtain ⟨p, rfl⟩ := happ
    have hs := store.Append_spec s p
    show (s.Append p).1.size + headroom (s.Append p).1.file (s.Append p).1.buf < 2 ^ 64
    cases hok : (s.Append p).2.2.2 with
    | none =>
      have h1 := (store.Append_ok_size hg hok).2.2
      have h2 := hs.head_ok hg.1.2 hok
      omega
    | some e =>
      have h1 := (hs.fail e hok).2.2
      have h2 := hs.head_le hg.1.2
      omega

theorem store.Good_run {s : store} (hg : s.Good) (ops : List Op) : (run s ops).Good := by
  induction ops generalizing s with
  | nil => exact hg
  | cons op ops ih => exact ih (store.Good_step hg op)

theorem Reachable.good {s : store} (h : Reachable s) : s.Good := by
  induction h with
  | new f s hf h => exact (newStore_good hf h).1
  | step s op _ ih => exact store.Good_step ih op

theorem store.Tidy_step {s : store} (hg : s.Tidy) (op : Op) : (step s op).Tidy := by
  refine ⟨store.WF_step hg.1 op, store.atEnd_step hg.2.1 op, fun he => ?_⟩
  by_cases happ : ∀ p, op ≠ Op.append p
  · have h := step_effect s op happ
    have hse : s.buf.err = none := by
      cases hx : s.buf.err with
      | none => rfl
      | some e => rw [(h.sticky e hx).1, hx] at he; cases he
    rw [store.SizeInv_iff, h.size, h.content hg.2.1]
    exact (store.SizeInv_iff s).mp (hg.2.2 hse)
  · push_neg at happ
    obtain ⟨p, rfl⟩ := happ
    exact (store.Append_ok_tidy hg ((store.Append_spec s p).err.trans he)).2.1

theorem store.Tidy_run {s : store} (hg : s.Tidy) (ops : List Op) : (run s ops).Tidy := by
  induction ops generalizing s with
  | nil => exact hg
  | cons op ops ih => exact ih (store.Tidy_step hg op)

theorem store.content_step (s : store) (op : Op) (hend : s.file.atEnd) :
    s.content <+: (step s op).content := by
  by_cases happ : ∀ p, op ≠ Op.append p
  · rw [(step_effect s op happ).content hend]
  · push_neg at happ
    obtain ⟨p, rfl⟩ := happ
    exact (store.Append_spec s p).grow hend

theorem store.content_run (s : store) (ops : List Op) (hend : s.file.atEnd) :
    s.content <+: (run s ops).content := by
  induction ops generalizing s with
  | nil => exact List.prefix_refl _
  | cons op ops ih =>
    exact (store.content_step s op hend).trans (ih (step s op) (store.atEnd_step hend op))

/-- A write that fits in the buffer only adds to the buffer. -/
theorem Writer.Write_fits (b : Writer) (f : File) (p : List Byte) (he : b.err = none)
    (hfit : p.length ≤ b.Available) :
    b.Write f p = ({ b with buf := b.buf ++ p }, f, p.length, none) := by
  have hc : WriteLoop.cond { b := b, f := f, p := p, nn := 0 } = false := by
    cases h : WriteLoop.cond { b := b, f := f, p := p, nn := 0 } with
    | false => rfl
    | true =>
      have := ((WriteLoop.cond_iff _).mp h).1
      simp only at this
      omega
  unfold Writer.Write
  rw [WriteLoop.run_of_not_cond 2 hc]
  simp only [he, Nat.min_eq_right hfit, List.take_length, Nat.zero_add]

theorem run_err_sticky {s : store} {e : Error} (h : s.buf.err = some e) (ops : List Op) :
    (run s ops).buf.err = some e := by
  induction ops generalizing s with
  | nil => exact h
  | cons op ops ih =>
    apply ih
    cases op with
    | append p =>
      show (s.Append p).1.buf.err = some e
      rw [(store.Append_spec s p).sticky e h]; exact h
    | read pos =>
      show (s.Read pos).1.buf.err = some e
      rw [((store.Read_effect s pos).sticky e h).1]; exact h
    | readAt p off =>
      show (s.ReadAt p off).1.buf.err = some e
      rw [((store.ReadAt_effect s p off).sticky e h).1]; exact h
    | close =>
      show s.Close.1.buf.err = some e
      rw [((store.Close_effect s).sticky e h).1]; exact h

theorem step_size_of_not_append (s : store) (op : Op) (h : ∀ p, op ≠ Op.append p) :
    (step s op).size = s.size := (step_effect s op h).size

theorem store.Append_fail_size (s : store) (p : List Byte) (h : (s.Append p).2.2.2 ≠ none) :
    (s.Append p).1.size = s.size := by
  cases he : (s.Append p).2.2.2 with
  | none => exact absurd he h
  | some e => exact ((store.Append_spec s p).fail e he).2.2

/-- The first record of a run starts at the size the store has at the start of the run. -/
theorem records_head (s : store) (ops : List Op) :
    ∀ x ∈ (records s ops).head?, x.1 = s.size := by
  induction ops generalizing s with
  | nil => intro x hx; simp [records] at hx
  | cons op ops ih =>
    intro x hx
    cases op with
    | append p =>
      unfold records at hx
      by_cases hok : (s.Append p).2.2.2 = none
      · rw [if_pos hok] at hx
        simp only [List.head?_cons, Option.mem_def, Option.some.injEq] at hx
        rw [← hx]
        exact ((store.Append_spec s p).ok hok).2.2.1
      · rw [if_neg hok] at hx
        rw [ih _ x hx]
        exact store.Append_fail_size s p hok
    | read pos =>
      rw [ih _ x hx]
      exact (store.Read_effect s pos).size
    | readAt p off =>
      rw [ih _ x hx]
      exact (store.ReadAt_effect s p off).size
    | close =>
      rw [ih _ x hx]
      exact (store.Close_effect s).size

theorem records_chain {s : store} (hg : s.Good) (ops : List Op) :
    List.Chain' (fun a b : Nat × List Byte => b.1 = a.1 + (lenWidth + a.2.length) ∧ a.1 < b.1)
      (records s ops) := by
  induction ops generalizing s with
  | nil => simp [records]
  | cons op ops ih =>
    cases op with
    | append p =>
      unfold records
      by_cases hok : (s.Append p).2.2.2 = none
      · rw [if_pos hok, List.chain'_cons']
        refine ⟨?_, ih (store.Good_step hg (Op.append p))⟩
        intro y hy
        have h1 := records_head _ ops y hy
        have h2 := store.Append_ok_size hg hok
        have h3 := h2.2.1
        have h4 : (step s (Op.append p)).size = s.size + (lenWidth + p.length) := h2.2.2
        have hlw : lenWidth = 8 := rfl
        dsimp only
        omega
      · rw [if_neg hok]
        exact ih (store.Good_step hg (Op.append p))
    | read pos => exact ih (store.Good_step hg (Op.read pos))
    | readAt p off => exact ih (store.Good_step hg (Op.readAt p off))
    | close => exact ih (store.Good_step hg Op.close)

theorem step_append (s : store) (p : List Byte) : step s (Op.append p) = (s.Append p).1 := rfl

theorem run_cons (s : store) (op : Op) (ops : List Op) :
    run s (op :: ops) = run (step s op) ops := rfl

theorem run_append (s : store) (ops1 ops2 : List Op) :
    run s (ops1 ++ ops2) = run (run s ops1) ops2 := by
  induction ops1 generalizing s with
  | nil => rfl
  | cons op ops ih => exact ih (step s op)

theorem records_cons_of_not_append (s : store) (op : Op) (ops : List Op)
    (h : ∀ p, op ≠ Op.append p) : records s (op :: ops) = records (step s op) ops := by
  cases op with
  | append p => exact absurd rfl (h p)
  | read pos => rfl
  | readAt p off => rfl
  | close => rfl

theorem records_cons_append (s : store) (p : List Byte) (ops : List Op) :
    records s (Op.append p :: ops) =
      if (s.Append p).2.2.2 = none then
        ((s.Append p).2.2.1, p) :: records (step s (Op.append p)) ops
      else records (step s (Op.append p)) ops := rfl

theorem run_size {s : store} (hg : s.Good) (ops : List Op) :
    (run s ops).size = s.size + ((records s ops).map fun r => lenWidth + r.2.length).sum := by
  induction ops generalizing s with
  | nil => simp [run, records]
  | cons op ops ih =>
    rw [run_cons, ih (store.Good_step hg op)]
    by_cases happ : ∀ p, op ≠ Op.append p
    · rw [records_cons_of_not_append s op ops happ, step_size_of_not_append s op happ]
    · push_neg at happ
      obtain ⟨p, rfl⟩ := happ
      rw [records_cons_append]
      by_cases hok : (s.Append p).2.2.2 = none
      · rw [if_pos hok, List.map_cons, List.sum_cons]
        have : (step s (Op.append p)).size = s.size + (lenWidth + p.length) :=
          (store.Append_ok_size hg hok).2.2
        rw [this]
        dsimp only
        omega
      · rw [if_neg hok]
        have : (step s (Op.append p)).size = s.size := store.Append_fail_size s p hok
        rw [this]

/-- Every record of a run lies in the logical content at the end of the run, as a whole
frame that starts at the position `Append` returned. -/
theorem records_mem_content {s : store} (hg : s.Tidy) (ops : List Op) :
    ∀ r ∈ records s ops, ∃ a c, (run s ops).content = a ++ (frame r.2 ++ c) ∧ a.length = r.1 := by
  induction ops generalizing s with
  | nil => intro r hr; simp [records] at hr
  | cons op ops ih =>
    intro r hr
    rw [run_cons]
    by_cases happ : ∀ p, op ≠ Op.append p
    · rw [records_cons_of_not_append s op ops happ] at hr
      exact ih (store.Tidy_step hg op) r hr
    · push_neg at happ
      obtain ⟨p, rfl⟩ := happ
      rw [records_cons_append] at hr
      by_cases hok : (s.Append p).2.2.2 = none
      · rw [if_pos hok, List.mem_cons] at hr
        rcases hr with rfl | hr
        · have h2 := store.Append_ok_tidy hg hok
          obtain ⟨c, hc⟩ := store.content_run (step s (Op.append p)) ops
            (store.atEnd_step hg.2.1 _)
          refine ⟨s.content, c, ?_, h2.2.2.1.symm⟩
          rw [← hc]
          show (s.Append p).1.content ++ c = _
          rw [h2.2.2.2.2.2, List.append_assoc]
        · exact ih (store.Tidy_step hg _) r hr
      · rw [if_neg hok] at hr
        exact ih (store.Tidy_step hg _) r hr

/-- The payload of a record is short enough for its length to be written as it is. -/
theorem records_length {s : store} (hg : s.WF) (ops : List Op) :
    ∀ r ∈ records s ops, lenWidth + r.2.length ≤ maxFileSize + defaultBufSize := by
  induction ops generalizing s with
  | nil => intro r hr; simp [records] at hr
  | cons op ops ih =>
    intro r hr
    by_cases happ : ∀ p, op ≠ Op.append p
    · rw [records_cons_of_not_append s op ops happ] at hr
      exact ih (store.WF_step hg op) r hr
    · push_neg at happ
      obtain ⟨p, rfl⟩ := happ
      rw [records_cons_append] at hr
      by_cases hok : (s.Append p).2.2.2 = none
      · rw [if_pos hok, List.mem_cons] at hr
        rcases hr with rfl | hr
        · have := store.Append_ok_room hg hok
          dsimp only
          omega
        · exact ih (store.WF_step hg _) r hr
      · rw [if_neg hok] at hr
        exact ih (store.WF_step hg _) r hr

theorem frame_of_le {p : List Byte} (h : lenWidth + p.length ≤ maxFileSize + defaultBufSize) :
    frame p = enc.PutUint64 p.length ++ p := by
  have hmf : maxFileSize = 2 ^ 63 - 1 := rfl
  have hbs : defaultBufSize = 4096 := rfl
  unfold frame
  rw [uint64_of_lt (by omega)]

/-- As long as no write has failed, and the handle writes at the end of the file, the logical
content is what it was at the start of the run followed by the frames of the records of the
run, in order. -/
theorem run_content {s : store} (hg : s.WF) (hend : s.file.atEnd) (ops : List Op)
    (he : (run s ops).buf.err = none) :
    (run s ops).content =
      s.content ++ ((records s ops).map fun r => enc.PutUint64 r.2.length ++ r.2).flatten := by
  induction ops generalizing s with
  | nil => simp [run, records]
  | cons op ops ih =>
    rw [run_cons] at he ⊢
    rw [ih (store.WF_step hg op) (store.atEnd_step hend op) he]
    have hse : (step s op).buf.err = none := by
      cases hx : (step s op).buf.err with
      | none => rfl
      | some e => rw [run_err_sticky hx ops] at he; cases he
    by_cases happ : ∀ p, op ≠ Op.append p
    · rw [(step_effect s op happ).content hend, records_cons_of_not_append s op ops happ]
    · push_neg at happ
      obtain ⟨p, rfl⟩ := happ
      have hs := store.Append_spec s p
      have hok : (s.Append p).2.2.2 = none := hs.err.trans hse
      have hb := store.Append_ok_room hg hok
      rw [records_cons_append, if_pos hok, List.map_cons, List.flatten_cons]
      show (s.Append p).1.content ++ _ = _
      rw [hs.ok_content hend hok, ← frame, frame_of_le (by omega), List.append_assoc]

theorem step_mem (s : store) (op : Op) : (step s op).file.mem = s.file.mem := by
  by_cases happ : ∀ p, op ≠ Op.append p
  · exact (step_effect s op happ).mem
  · push_neg at happ
    obtain ⟨p, rfl⟩ := happ
    exact (store.Append_spec s p).same.mem

theorem run_mem (s : store) (ops : List Op) : (run s ops).file.mem = s.file.mem := by
  induction ops generalizing s with
  | nil => rfl
  | cons op ops ih => exact (ih (step s op)).trans (step_mem s op)

/-! ## Reading frames back -/

/-- When the flush succeeds, `ReadAt` is the positional read of the file after the flush. -/
theorem store.ReadAt_of_flush (s : store) (p : List Byte) (off : Int)
    (h : (s.buf.Flush s.file).2.2 = none) :
    (s.ReadAt p off).2 = ((s.buf.Flush s.file).2.1.ReadAt p off).2 := by
  unfold store.ReadAt
  dsimp only
  rw [h]

/-- When the flush fails, `ReadAt` returns the buffer as it was, the count `0` and the error of
the flush. -/
theorem store.ReadAt_flush_error (s : store) (p : List Byte) (off : Int) (e : Error)
    (h : (s.buf.Flush s.file).2.2 = some e) : (s.ReadAt p off).2 = (p, 0, some e) := by
  unfold store.ReadAt
  dsimp only
  rw [h]

theorem store.flushed_file (s : store) (hend : s.file.atEnd)
    (h : (s.buf.Flush s.file).2.2 = none) :
    (s.buf.Flush s.file).2.1.data = s.content := by
  have hF := Writer.Flush_spec s.buf s.file
  have := hF.content hend
  rw [(hF.ok h).1, List.append_nil] at this
  exact this

theorem store.flushed_reads (s : store) (h : s.file.readsDoNotFail) :
    (s.buf.Flush s.file).2.1.readsDoNotFail := by
  have hF := Writer.Flush_spec s.buf s.file
  refine ⟨hF.same.closed.trans h.1, ?_⟩
  rw [hF.same.rfaults]; exact h.2

/-- Reading a frame back: if the handle writes at the end of the file, the logical content
holds the frame of `p` at offset `pos`, the flush succeeds and the reads are not made to fail,
`Read pos` returns `p` when a slice of `len p` bytes can be allocated, and the process ends
with `out of memory` when it cannot. -/
theorem store.Read_frame (s : store) (pos : Nat) (p a c : List Byte)
    (hflush : (s.buf.Flush s.file).2.2 = none) (hend : s.file.atEnd)
    (hle : s.file.data.length ≤ maxFileSize)
    (hc : s.content = a ++ (frame p ++ c)) (ha : a.length = pos)
    (hr : s.file.readsDoNotFail) (hp : p.length ≤ maxAlloc) :
    (s.Read pos).2 = if s.file.mem < p.length then ReadResult.fatal else ReadResult.ok p := by
  have hF := Writer.Flush_spec s.buf s.file
  have hd : (s.buf.Flush s.file).2.1.data = a ++ (frame p ++ c) := by
    rw [store.flushed_file s hend hflush]; exact hc
  have hwf := hF.wf hle
  have hr1 : (s.buf.Flush s.file).2.1.readsDoNotFail := store.flushed_reads s hr
  have hm1 : (s.buf.Flush s.file).2.1.mem = s.file.mem := hF.same.mem
  have hma : maxAlloc = 2 ^ 48 := rfl
  have hmf : maxFileSize = 2 ^ 63 - 1 := rfl
  have hu : uint64 p.length = p.length := Nat.mod_eq_of_lt (by omega)
  have hfl : (frame p).length = 8 + p.length := by
    simp [frame, enc.PutUint64_length]
  have hlen : (s.buf.Flush s.file).2.1.data.length = pos + (8 + p.length + c.length) := by
    rw [hd]; simp [hfl, ha]
  unfold store.Read
  dsimp only
  rw [hflush]
  dsimp only
  generalize (s.buf.Flush s.file).2.1 = f1 at hd hwf hr1 hlen hm1
  have hi1 : int64 pos = (pos : Int) := int64_of_lt pos (by omega)
  have hi2 : int64 ((pos + lenWidth) % 2 ^ 64) = ((pos + 8 : Nat) : Int) := by
    have : (pos + lenWidth) % 2 ^ 64 = pos + 8 := Nat.mod_eq_of_lt (by simp only [lenWidth]; omega)
    rw [this]
    exact int64_of_lt _ (by omega)
  have hR1 := File.ReadAt_clean f1 (List.replicate lenWidth 0) pos hr1 hwf
    (by simp only [List.length_replicate, lenWidth]; omega)
  have hF1 := File.ReadAt_file f1 (List.replicate lenWidth 0) (pos : Int)
  rw [hi1, hi2]
  generalize f1.ReadAt (List.replicate lenWidth 0) (pos : Int) = r1 at hR1 hF1
  obtain ⟨f2, sz, n1, e1⟩ := r1
  simp only [Prod.mk.injEq, List.length_replicate] at hR1
  obtain ⟨hsz, _, he1⟩ := hR1
  subst he1
  dsimp only at hF1 ⊢
  have hsz' : sz = enc.PutUint64 p.length := by
    rw [hsz, hd, ← ha, List.drop_left, frame, hu, List.append_assoc]
    simp only [lenWidth]
    rw [← enc.PutUint64_length p.length, List.take_left]
  have hn : enc.Uint64 sz = p.length := by
    have := enc.Uint64_PutUint64 p.length (by omega) []
    rw [List.append_nil] at this
    rw [hsz', this]
  rw [hn, if_neg (by omega), hF1.1.mem, hm1]
  by_cases hmem : s.file.mem < p.length
  · rw [if_pos hmem, if_pos hmem]
  · rw [if_neg hmem, if_neg hmem]
    have hr2 : f2.readsDoNotFail := ⟨hF1.2.trans hr1.1, hF1.1.rfaults hr1.2⟩
    have hR2 := File.ReadAt_clean f2 (List.replicate p.length 0) (pos + 8) hr2
      (by rw [hF1.1.data]; exact hwf)
      (by rw [hF1.1.data]; simp only [List.length_replicate]; omega)
    generalize f2.ReadAt (List.replicate p.length 0) ((pos + 8 : Nat) : Int) = r2 at hR2
    obtain ⟨f3, b, n2, e2⟩ := r2
    simp only [Prod.mk.injEq, List.length_replicate] at hR2
    obtain ⟨hb, _, he2⟩ := hR2
    subst he2
    dsimp only
    congr 1
    have key : a ++ (frame p ++ c) = (a ++ enc.PutUint64 (uint64 p.length)) ++ (p ++ c) := by
      simp [frame]
    have hl : (a ++ enc.PutUint64 (uint64 p.length)).length = pos + 8 := by
      simp [enc.PutUint64_length, ha]
    rw [hb, hF1.1.data, hd, key, ← hl, List.drop_left, List.take_left]

/-! ## Writes that succeed -/

/-- An undisturbed write that fits below the largest file offset writes all its bytes. -/
theorem File.Write_file_clean (f : File) (b : List Byte) (hw : f.writesDoNotFail)
    (hroom : f.writePos + b.length ≤ maxFileSize) :
    (f.Write b).2 = (b.length, none) ∧ (f.Write b).1.writesDoNotFail ∧
      (f.Write b).1.writePos = f.writePos + b.length := by
  have hs := File.Write_file_spec f b
  have hc : ¬ (f.closed = true) := by simp [hw.1]
  have hcut : writeCut f.wfaults.head?.join (maxFileSize - f.writePos) b.length = none := by
    rw [File.head_clean hw.2]
    exact writeCut_clean _ _ (by omega)
  have hres : f.Write b =
      ({ f with data := overwrite f.data f.writePos b, offset := f.writePos + b.length,
                wfaults := f.wfaults.tail }, b.length, none) := by
    unfold File.Write
    rw [if_neg hc, hcut]
  have hpos := hs.pos
  rw [hres] at hpos ⊢
  exact ⟨rfl, ⟨hw.1, fun x hx => hw.2 x (List.mem_of_mem_tail hx)⟩, hpos⟩

/-- An undisturbed flush that fits below the largest file offset succeeds. -/
theorem Writer.Flush_clean (b : Writer) (f : File) (he : b.err = none)
    (hw : f.writesDoNotFail) (hroom : f.writePos + b.buf.length ≤ maxFileSize) :
    (b.Flush f).2.2 = none ∧ (b.Flush f).1 = { err := none, buf := [] } ∧
      (b.Flush f).2.1.writesDoNotFail ∧
      (b.Flush f).2.1.writePos = f.writePos + b.buf.length := by
  by_cases h0 : b.buf.length = 0
  · have hb : b.buf = [] := List.length_eq_zero.mp h0
    have hres : b.Flush f = (b, f, none) := by
      unfold Writer.Flush
      rw [he]
      dsimp only
      rw [if_pos h0]
    rw [hres]
    refine ⟨rfl, ?_, hw, by rw [h0]; rfl⟩
    cases b with
    | mk e l =>
      simp only at he hb
      rw [he, hb]
  · obtain ⟨h1, h2, h3⟩ := File.Write_file_clean f b.buf hw hroom
    have hres : b.Flush f = ({ err := none, buf := [] }, (f.Write b.buf).1, none) := by
      unfold Writer.Flush
      rw [he]
      dsimp only
      rw [if_neg h0, h1]
      simp
    rw [hres]
    exact ⟨rfl, rfl, h2, h3⟩

theorem WriteLoop.body_clean {k : Nat} {st : WriteLoop} (hk : k ≤ maxFileSize)
    (hJ : WriteLoop.Clean k st) (hc : st.cond = true) : WriteLoop.Clean k st.body := by
  obtain ⟨hlen, _⟩ := (WriteLoop.cond_iff st).mp hc
  obtain ⟨he, hw, hb, ht⟩ := hJ
  unfold WriteLoop.body
  by_cases h0 : st.b.Buffered = 0
  · rw [if_pos h0]
    have h0' : st.b.buf.length = 0 := h0
    obtain ⟨h1, h2, h3⟩ := File.Write_file_clean st.f st.p hw (by omega)
    refine ⟨?_, h2, hb, ?_⟩
    · show (st.f.Write st.p).2.2 = none
      rw [h1]
    · show (st.f.Write st.p).1.writePos + st.b.buf.length +
        (st.p.drop (st.f.Write st.p).2.1).length = k
      rw [h3, h1, List.length_drop]
      omega
  · rw [if_neg h0]
    have hav : min st.b.Available st.p.length = st.b.Available := Nat.min_eq_left (by omega)
    simp only [hav]
    have hbl : (st.b.buf ++ st.p.take st.b.Available).length =
        st.b.buf.length + st.b.Available := by
      rw [List.length_append, List.length_take, Nat.min_eq_left (by omega)]
    have hA : st.b.Available = defaultBufSize - st.b.buf.length := rfl
    obtain ⟨h1, h2, h3, h4⟩ := Writer.Flush_clean
      { st.b with buf := st.b.buf ++ st.p.take st.b.Available } st.f he hw
      (by show st.f.writePos + (st.b.buf ++ st.p.take st.b.Available).length ≤ _
          rw [hbl]; omega)
    refine ⟨?_, h3, ?_, ?_⟩
    · rw [h2]
    · rw [h2]; exact Nat.zero_le _
    · rw [h2, h4]
      show st.f.writePos + (st.b.buf ++ st.p.take st.b.Available).length + 0 +
        (st.p.drop st.b.Available).length = k
      rw [hbl, List.length_drop]
      omega

theorem WriteLoop.run_clean {k : Nat} (hk : k ≤ maxFileSize) (n : Nat) :
    ∀ {st : WriteLoop}, WriteLoop.Clean k st → WriteLoop.Clean k (WriteLoop.run n st) := by
  induction n with
  | zero => intro st h; exact h
  | succ n ih =>
    intro st h
    unfold WriteLoop.run
    split
    · rename_i hc
      exact ih (WriteLoop.body_clean hk h hc)
    · exact h

/-- A write through the buffer succeeds when no write has failed, none is made to fail, and
the bytes fit below the largest file offset. -/
theorem Writer.Write_clean (b : Writer) (f : File) (p : List Byte) (he : b.err = none)
    (hw : f.writesDoNotFail) (hb : b.buf.length ≤ defaultBufSize)
    (hroom : f.writePos + b.buf.length + p.length ≤ maxFileSize) :
    (b.Write f p).2.2 = (p.length, none) ∧ (b.Write f p).1.err = none ∧
      (b.Write f p).2.1.writesDoNotFail ∧ (b.Write f p).1.buf.length ≤ defaultBufSize ∧
      (b.Write f p).2.1.writePos + (b.Write f p).1.buf.length =
        f.writePos + b.buf.length + p.length := by
  have hJ := WriteLoop.run_clean hroom 2
    (⟨he, hw, hb, rfl⟩ : WriteLoop.Clean _ { b := b, f := f, p := p, nn := 0 })
  have hS := Writer.Write_spec b f p
  have hX := WriteLoop.run_exit { b := b, f := f, p := p, nn := 0 }
  have hok : (b.Write f p).2.2.2 = none := by
    unfold Writer.Write
    dsimp only
    rw [hJ.err]
  have hfile : (b.Write f p).2.1 = (WriteLoop.run 2 { b := b, f := f, p := p, nn := 0 }).f := by
    unfold Writer.Write
    dsimp only
    rw [hJ.err]
  have hbuf : (b.Write f p).1.buf.length =
      (WriteLoop.run 2 { b := b, f := f, p := p, nn := 0 }).b.buf.length +
        (WriteLoop.run 2 { b := b, f := f, p := p, nn := 0 }).p.length := by
    unfold Writer.Write
    dsimp only
    rw [hJ.err]
    dsimp only
    generalize WriteLoop.run 2 { b := b, f := f, p := p, nn := 0 } = st at hJ hX
    have hle : st.p.length ≤ st.b.Available := by
      by_contra hlt
      have : st.cond = true := (WriteLoop.cond_iff st).mpr ⟨by omega, hJ.err⟩
      rw [hX] at this
      cases this
    rw [Nat.min_eq_right hle, List.take_length, List.length_append]
  have hn := (hS.ok hok).1
  refine ⟨?_, hS.err.symm.trans hok, by rw [hfile]; exact hJ.writes, hS.buf_le hb, ?_⟩
  · rw [← hn, ← hok]
  · rw [hfile, hbuf, ← Nat.add_assoc]
    exact hJ.total

/-- An `Append` succeeds when no write has failed, none is made to fail, and the frame fits
below the largest file offset. -/
theorem store.Append_clean (s : store) (p : List Byte) (he : s.buf.err = none)
    (hw : s.file.writesDoNotFail) (hb : s.buf.buf.length ≤ defaultBufSize)
    (hroom : s.file.writePos + s.buf.buf.length + (lenWidth + p.length) ≤ maxFileSize) :
    (s.Append p).2.2.2 = none ∧ (s.Append p).1.buf.err = none ∧
      (s.Append p).1.file.writesDoNotFail ∧
      (s.Append p).1.file.writePos + (s.Append p).1.buf.buf.length =
        s.file.writePos + s.buf.buf.length + (lenWidth + p.length) := by
  have hlw : lenWidth = 8 := rfl
  obtain ⟨a1, a2, a3, a4, a5⟩ := Writer.Write_clean s.buf s.file
    (enc.PutUint64 (uint64 p.length)) he hw hb (by rw [enc.PutUint64_length]; omega)
  rw [enc.PutUint64_length] at a5
  obtain ⟨b1, b2, b3, b4, b5⟩ := Writer.Write_clean
    (s.buf.Write s.file (enc.PutUint64 (uint64 p.length))).1
    (s.buf.Write s.file (enc.PutUint64 (uint64 p.length))).2.1 p a2 a3 a4 (by omega)
  have ha : (s.buf.Write s.file (enc.PutUint64 (uint64 p.length))).2.2.2 = none := by rw [a1]
  have hb' : ((s.buf.Write s.file (enc.PutUint64 (uint64 p.length))).1.Write
      (s.buf.Write s.file (enc.PutUint64 (uint64 p.length))).2.1 p).2.2.2 = none := by rw [b1]
  unfold store.Append
  dsimp only
  rw [binary.Write_eq]
  dsimp only
  rw [ha]
  dsimp only
  rw [hb']
  dsimp only
  exact ⟨rfl, b2, b3, by rw [b5, a5]; omega⟩

theorem bigPayload_length : bigPayload.length = 2 ^ 30 + 1 := List.length_replicate _ _

/-- Reading a record back dies for want of memory. On the store over an empty, undisturbed
file, `Append` of a payload of one byte more than a gibibyte returns no error and the position
`0`; the flush inside the `Read` that follows succeeds and no read is made to fail; the length
field read back is within `maxAlloc`, but a gibibyte is all that can be allocated: `Read 0`
returns nothing, the process ends with `out of memory`. -/
theorem bigPayload_read_fatal :
    (emptyStore.Append bigPayload).2.2.2 = none ∧ (emptyStore.Append bigPayload).2.2.1 = 0 ∧
      ((emptyStore.Append bigPayload).1.buf.Flush (emptyStore.Append bigPayload).1.file).2.2
        = none ∧
      (emptyStore.Append bigPayload).1.file.readsDoNotFail ∧
      (emptyStore.Append bigPayload).1.Tidy ∧
      (emptyStore.Append bigPayload).1.content = frame bigPayload ∧
      (emptyStore.Append bigPayload).1.file.mem = 2 ^ 30 ∧
      ((emptyStore.Append bigPayload).1.Read 0).2 = ReadResult.fatal := by
  have hmf : maxFileSize = 2 ^ 63 - 1 := rfl
  have hlw : lenWidth = 8 := rfl
  have hlen := bigPayload_length
  have h0 : emptyStore.file.writePos + emptyStore.buf.buf.length = 0 := by decide
  have ht : emptyStore.Tidy := by decide
  obtain ⟨a1, a2, a3, a4⟩ := store.Append_clean emptyStore bigPayload rfl (by decide)
    (by decide) (by omega)
  have hs := store.Append_spec emptyStore bigPayload
  have h2 := store.Append_ok_tidy ht a1
  have hfl := (Writer.Flush_clean _ _ a2 a3 (by omega)).1
  have hr : (emptyStore.Append bigPayload).1.file.readsDoNotFail :=
    ⟨hs.same.closed.trans rfl, by rw [hs.same.rfaults]; decide⟩
  have hc : (emptyStore.Append bigPayload).1.content = frame bigPayload := by
    have e0 : emptyStore.content = [] := rfl
    rw [h2.2.2.2.2.2, e0, List.nil_append]
  have hm : (emptyStore.Append bigPayload).1.file.mem = 2 ^ 30 := hs.same.mem.trans rfl
  have ht1 := store.Tidy_step ht (Op.append bigPayload)
  rw [step_append] at ht1
  refine ⟨a1, (hs.ok a1).2.2.1, hfl, hr, ht1, hc, hm, ?_⟩
  rw [store.Read_frame _ 0 bigPayload [] [] hfl (hs.atEnd ht.2.1) (hs.wf ht.1.1)
    (by rw [hc, List.append_nil, List.nil_append]) rfl hr
    (by rw [hlen]; decide), hm, hlen, if_pos (by decide)]

theorem File.reopen_atEnd (g : File) : (File.reopen g true).atEnd := rfl

theorem File.reopen_fields (g : File) (m : Bool) :
    (File.reopen g m).data = g.data ∧ (File.reopen g m).statSize = g.data.length ∧
      (File.reopen g m).statErr = g.statErr ∧ (File.reopen g m).mem = g.mem ∧
      (File.reopen g m).rfaults = g.rfaults ∧ (File.reopen g m).closed = false :=
  ⟨rfl, rfl, rfl, rfl, rfl, rfl⟩

theorem bigResumedStore_file :
    bigResumedStore.file = File.reopen (emptyStore.Append bigPayload).1.Close.1.file true := rfl

theorem bigResumedStore_buf : bigResumedStore.buf = NewWriter := rfl

theorem store.Close_clean (s : store) (hfl : (s.buf.Flush s.file).2.2 = none)
    (hc : s.file.closed = false) (he : s.file.closeErr = none) : s.Close.2 = none := by
  have hF := Writer.Flush_spec s.buf s.file
  unfold store.Close
  dsimp only
  rw [hfl]
  dsimp only
  unfold File.Close
  rw [if_neg (by rw [hF.same.closed, hc]; simp)]
  exact hF.same.closeErr.trans he

theorem newStore_of_stat (f : File) (h : f.statErr = none) :
    newStore f = .ok { file := f, buf := NewWriter, size := uint64 f.statSize } := by
  unfold newStore File.Stat
  rw [h]
  rfl

/-- The same after the store has been closed and the file opened again: `Close` succeeds, the
file is opened again with `O_APPEND`, `newStore` builds a fresh store over it, no read is made
to fail, and `Read 0` on the fresh store ends the process with `out of memory`. -/
theorem bigPayload_reopen_fatal :
    (emptyStore.Append bigPayload).1.Close.2 = none ∧
      newStore (File.reopen (emptyStore.Append bigPayload).1.Close.1.file true)
        = .ok bigResumedStore ∧
      bigResumedStore.file.readsDoNotFail ∧
      (bigResumedStore.Read 0).2 = ReadResult.fatal := by
  obtain ⟨a1, a2, hfl, hr, ht, hc, hm, _⟩ := bigPayload_read_fatal
  have hs := store.Append_spec emptyStore bigPayload
  have hE := store.Close_effect (emptyStore.Append bigPayload).1
  have hlen := bigPayload_length
  have hmf : maxFileSize = 2 ^ 63 - 1 := rfl
  have hclose := store.Close_clean _ hfl (hs.same.closed.trans rfl) (hs.same.closeErr.trans rfl)
  have hdata := hE.flushed_end ht.2.1 hfl
  rw [hc] at hdata
  have hfl8 : (frame bigPayload).length = 2 ^ 30 + 9 := by
    rw [frame, List.length_append, enc.PutUint64_length, hlen]
    decide
  have hR := File.reopen_fields (emptyStore.Append bigPayload).1.Close.1.file true
  have hstat : (File.reopen (emptyStore.Append bigPayload).1.Close.1.file true).statSize
      = 2 ^ 30 + 9 := by
    rw [hR.2.1, hdata, hfl8]
  have hse : (File.reopen (emptyStore.Append bigPayload).1.Close.1.file true).statErr = none :=
    hR.2.2.1.trans ((hE.statErr.trans hs.same.statErr).trans rfl)
  have hnew : newStore (File.reopen (emptyStore.Append bigPayload).1.Close.1.file true)
      = .ok bigResumedStore := by
    rw [newStore_of_stat _ hse, hstat]
    rfl
  have hreads : bigResumedStore.file.readsDoNotFail := by
    rw [bigResumedStore_file]
    refine ⟨hR.2.2.2.2.2, ?_⟩
    rw [hR.2.2.2.2.1]
    exact hE.rfaults hr.2
  refine ⟨hclose, hnew, hreads, ?_⟩
  have hmem : bigResumedStore.file.mem = 2 ^ 30 := by
    rw [bigResumedStore_file, hR.2.2.2.1, hE.mem, hm]
  have hd2 : bigResumedStore.file.data = frame bigPayload := by
    rw [bigResumedStore_file, hR.1, hdata]
  rw [store.Read_frame bigResumedStore 0 bigPayload [] []
    (by rw [bigResumedStore_buf]; rfl)
    (by rw [bigResumedStore_file]; exact File.reopen_atEnd _)
    (by rw [hd2, hfl8, hmf]; decide)
    (by rw [store.content, hd2, bigResumedStore_buf, List.nil_append]; rfl) rfl hreads
    (by rw [hlen]; decide), hmem, hlen, if_pos (by decide)]

/-! ## The claims -/

/-- C1, as stated, fails in two ways. The handle is not at the end of the file: the file holds the frame of `"hello"` and has been opened for
reading and writing without `O_APPEND`, so that its handle is at offset `0`; `newStore` gives
a store of size 13, the length of the file. `Append "world"` returns no error and the position
13; the flush inside `Read` returns no error and no read is made to fail; but the flush has
written the new frame at offset `0`, over the old one, the file still has 13 bytes, and
`Read 13` returns `io.EOF`. The memory is short: on the store over an empty file, where the
handle is at the end, `Append` of a payload of one byte more than a gibibyte returns no error
and the position `0`; the flush inside `Read` returns no error and no read is made to fail;
a gibibyte is all that `make` can obtain, and `Read 0` returns nothing: the process ends with
`out of memory`. -/
theorem C1_counterexample :
    (newStore rewoundFile = .ok rewoundStore ∧ rewoundStore.WF ∧ rewoundStore.SizeInv ∧
      (rewoundStore.Append world).2 = (13, 13, none) ∧
      ((rewoundStore.Append world).1.buf.Flush (rewoundStore.Append world).1.file).2.2 = none ∧
      (rewoundStore.Append world).1.file.readsDoNotFail ∧
      ((rewoundStore.Append world).1.Read 13).2 = ReadResult.error Error.EOF ∧
      ((rewoundStore.Append world).1.Read 13).1.file.data = frame world) ∧
    (newStore (File.ofData []) = .ok emptyStore ∧ emptyStore.WF ∧ emptyStore.SizeInv ∧
      emptyStore.file.atEnd ∧
      (emptyStore.Append bigPayload).2.2.2 = none ∧ (emptyStore.Append bigPayload).2.2.1 = 0 ∧
      ((emptyStore.Append bigPayload).1.buf.Flush (emptyStore.Append bigPayload).1.file).2.2
        = none ∧
      (emptyStore.Append bigPayload).1.file.readsDoNotFail ∧
      ((emptyStore.Append bigPayload).1.Read 0).2 = ReadResult.fatal) :=
  ⟨⟨rfl, by decide, by decide, by decide, by decide, by decide, by decide, by decide⟩,
    ⟨rfl, by decide, by decide, by decide, bigPayload_read_fatal.1, bigPayload_read_fatal.2.1,
      bigPayload_read_fatal.2.2.1, bigPayload_read_fatal.2.2.2.1,
      bigPayload_read_fatal.2.2.2.2.2.2.2⟩⟩

/-- C1, amended (round trip). In every store state the types allow (`store.WF`) in which `size`
equals the length of the file plus the number of buffered bytes and the handle of the file
writes at the end of the file (it was opened with `O_APPEND`, or its offset is the length of
the file), and for every byte slice `p` (the empty one included): if `Append p` returns no
error and position `pos`, then `Read pos`, called next on the same store, returns exactly `p`,
provided the flush inside `Read` does not fail, the positional reads are not made to fail, and
a slice of `len p` bytes can be allocated. -/
theorem C1_round_trip (s : store) (p : List Byte) (hwf : s.WF) (hsize : s.SizeInv)
    (hend : s.file.atEnd) (hp : s.file.canAlloc p.length)
    (happ : (s.Append p).2.2.2 = none)
    (hflush : ((s.Append p).1.buf.Flush (s.Append p).1.file).2.2 = none)
    (hreads : (s.Append p).1.file.readsDoNotFail) :
    ((s.Append p).1.Read (s.Append p).2.2.1).2 = ReadResult.ok p := by
  have hg : s.Tidy := ⟨hwf, hend, fun _ => hsize⟩
  have h2 := store.Append_ok_tidy hg happ
  have hs := store.Append_spec s p
  have hmem : ¬ ((s.Append p).1.file.mem < p.length) := by
    rw [hs.same.mem]
    exact Nat.not_lt.mpr hp.2
  rw [store.Read_frame _ _ p s.content [] hflush (hs.atEnd hend) (hs.wf hwf.1) _ h2.2.2.1.symm
    hreads hp.1, if_neg hmem]
  rw [h2.2.2.2.2.2, List.append_nil]

theorem C1_round_trip_witness :
    ((emptyStore.Append hello).1.Read (emptyStore.Append hello).2.2.1).2 = ReadResult.ok hello ∧
      ((emptyStore.Append []).1.Read (emptyStore.Append []).2.2.1).2 = ReadResult.ok [] :=
  ⟨C1_round_trip emptyStore hello (by decide) (by decide) (by decide) (by decide) (by decide)
      (by decide) (by decide),
    C1_round_trip emptyStore [] (by decide) (by decide) (by decide) (by decide) (by decide)
      (by decide) (by decide)⟩

/-- C2 (offset disjointness). On every store the program can hold, a successful `Append`
returns the size the store had immediately before the call; and in every sequence of calls that
follows, of two successive successful `Append` calls the second returns the position of the
first plus `8 + len` of the first payload, which is strictly greater: the frame ranges
`[pos, pos + 8 + len p)` do not overlap. -/
theorem C2_offset_disjointness (s : store) (ops : List Op) (hr : Reachable s) :
    (∀ p, (s.Append p).2.2.2 = none → (s.Append p).2.2.1 = s.size) ∧
      List.Chain'
        (fun a b : Nat × List Byte => b.1 = a.1 + (lenWidth + a.2.length) ∧ a.1 < b.1)
        (records s ops) :=
  ⟨fun p hok => ((store.Append_spec s p).ok hok).2.2.1, records_chain hr.good ops⟩

theorem C2_offset_disjointness_witness :
    (∀ p, (emptyStore.Append p).2.2.2 = none → (emptyStore.Append p).2.2.1 = emptyStore.size) ∧
      List.Chain'
        (fun a b : Nat × List Byte => b.1 = a.1 + (lenWidth + a.2.length) ∧ a.1 < b.1)
        (records emptyStore [Op.append hello, Op.read 0, Op.append world, Op.append []]) :=
  C2_offset_disjointness emptyStore _ (Reachable.new (File.ofData []) emptyStore (by decide) rfl)

/-- C3 (size accounting). For a store created by `newStore` over an empty file (the file has
no byte, and stat reports its length), after any sequence of calls (`Append`, `Read`, `ReadAt`,
also `Close`, in any order) the size of the store is the sum of `8 + len p` over the payloads
`p` of the `Append` calls that returned no error. -/
theorem C3_size_accounting (f : File) (s : store) (ops : List Op) (hnew : newStore f = .ok s)
    (hempty : f.data = []) (hstat : f.statSize = f.data.length) :
    (run s ops).size = ((records s ops).map fun r => 8 + r.2.length).sum := by
  have hs0 : f.statSize = 0 := by rw [hstat, hempty]; rfl
  have hf : f.Fits := by
    refine ⟨by rw [hempty]; exact Nat.zero_le _, ?_⟩
    have hmf : maxFileSize = 2 ^ 63 - 1 := rfl
    have hbs : defaultBufSize = 4096 := rfl
    omega
  have hg := newStore_good hf hnew
  have h0 : s.size = 0 := by
    rw [(newStore_ok hnew).2, hs0]
    rfl
  rw [run_size hg.1 ops, h0, Nat.zero_add]
  rfl

theorem C3_size_accounting_witness :
    (run emptyStore [Op.append hello, Op.read 0, Op.append world]).size =
      ((records emptyStore [Op.append hello, Op.read 0, Op.append world]).map
        fun r => 8 + r.2.length).sum :=
  C3_size_accounting (File.ofData []) emptyStore _ rfl rfl rfl

/-- C4 (on-disk format). For a store created by `newStore` over an empty file (the file has no
byte and its handle is at offset `0`, where every way of opening an empty file puts it), after
any sequence of calls followed by a call that flushes (`Read`, `ReadAt` or `Close`) and whose
flush returns no error, the bytes of the file are exactly the frames `BE8(len p) ++ p` of the
payloads appended without error, one after the other in the order of the calls, with nothing
before, between or after them. -/
theorem C4_on_disk_format (f : File) (s : store) (ops : List Op) (op : Op)
    (hnew : newStore f = .ok s) (hempty : f.data = []) (hpos : f.atEnd)
    (hop : op.flushes = true)
    (hflush : ((run s ops).buf.Flush (run s ops).file).2.2 = none) :
    (step (run s ops) op).file.data =
      ((records s ops).map fun r => enc.PutUint64 r.2.length ++ r.2).flatten := by
  obtain ⟨_, hs⟩ := newStore_ok hnew
  have hwf : s.WF := by
    rw [hs]
    exact ⟨by show f.data.length ≤ _; rw [hempty]; exact Nat.zero_le _, Nat.zero_le _⟩
  have hend : s.file.atEnd := by rw [hs]; exact hpos
  have h0 : s.content = [] := by
    rw [hs]
    show f.data ++ [] = []
    rw [hempty]
    rfl
  have happ : ∀ p, op ≠ Op.append p := by
    intro p hp
    rw [hp] at hop
    cases hop
  have h := step_effect (run s ops) op happ
  have he : (run s ops).buf.err = none :=
    ((Writer.Flush_spec (run s ops).buf (run s ops).file).ok hflush).2
  rw [h.flushed_end (store.atEnd_run hend ops) hflush, run_content hwf hend ops he, h0,
    List.nil_append]

theorem C4_on_disk_format_witness :
    (step (run emptyStore [Op.append hello, Op.append world]) Op.close).file.data =
      ((records emptyStore [Op.append hello, Op.append world]).map
        fun r => enc.PutUint64 r.2.length ++ r.2).flatten :=
  C4_on_disk_format (File.ofData []) emptyStore _ Op.close rfl rfl (by decide) rfl (by decide)

/-- C5 (byte count of `Append`). In every store state the types allow, an `Append p` that
returns no error returns `8 + len p` as the number of bytes written, the file and the buffer
have taken that many bytes, and where the handle writes at the end of the file the frame of
`p` has been added to the logical content. The empty slice
is a legal payload: wherever no write has failed before and the buffer has room for eight more
bytes, `Append` of the empty slice returns `(8, size, nil)` and adds exactly eight zero bytes
to the logical content. -/
theorem C5_append_count (s : store) (p : List Byte) (hwf : s.WF) :
    ((s.Append p).2.2.2 = none →
      (s.Append p).2.1 = 8 + p.length ∧
        headroom (s.Append p).1.file (s.Append p).1.buf + (8 + p.length) =
          headroom s.file s.buf ∧
        (s.file.atEnd → (s.Append p).1.content = s.content ++ (enc.PutUint64 p.length ++ p))) ∧
    (s.buf.err = none → s.buf.buf.length + 8 ≤ defaultBufSize →
      (s.Append []).2 = (8, s.size, none) ∧
        (s.Append []).1.content = s.content ++ List.replicate 8 0) := by
  have hmf : maxFileSize = 2 ^ 63 - 1 := rfl
  have hbs : defaultBufSize = 4096 := rfl
  have hlw : lenWidth = 8 := rfl
  constructor
  · intro hok
    have hs := (store.Append_spec s p).ok hok
    have hb := store.Append_ok_room hwf hok
    refine ⟨?_, ?_, fun hend => ?_⟩
    · rw [hs.2.1, uint64_of_lt (by omega)]
      omega
    · have := (store.Append_spec s p).head_ok hwf.2 hok
      omega
    · rw [(store.Append_spec s p).ok_content hend hok, uint64_of_lt (by omega)]
  · intro he hroom
    have h1 : s.buf.Write s.file (enc.PutUint64 (uint64 ([] : List Byte).length)) =
        ({ s.buf with buf := s.buf.buf ++ enc.PutUint64 0 }, s.file, 8, none) :=
      Writer.Write_fits _ _ _ he (by simp only [Writer.Available, enc.PutUint64_length]; omega)
    have h2 : ({ s.buf with buf := s.buf.buf ++ enc.PutUint64 0 } : Writer).Write s.file [] =
        ({ s.buf with buf := s.buf.buf ++ enc.PutUint64 0 ++ [] }, s.file, 0, none) :=
      Writer.Write_fits _ _ _ he (Nat.zero_le _)
    have hA : (s.Append []).2 = (8, s.size, none) ∧
        (s.Append []).1.content = s.file.data ++ (s.buf.buf ++ enc.PutUint64 0 ++ []) := by
      unfold store.Append
      simp only [binary.Write_eq, h1, h2]
      exact ⟨rfl, rfl⟩
    refine ⟨hA.1, ?_⟩
    rw [hA.2, List.append_nil, ← List.append_assoc]
    rfl

theorem C5_append_count_witness :
    (emptyStore.Append []).2 = (8, emptyStore.size, none) ∧
      (emptyStore.Append []).1.content = emptyStore.content ++ List.replicate 8 0 :=
  (C5_append_count emptyStore [] (by decide)).2 rfl (by decide)

/-- On a full disk, with an empty buffer, the write of the length field of a payload of 4090
bytes succeeds (it stays in the buffer) and the write of the payload fails: the buffer
overflows, and the flush meets the error of the disk. -/
theorem fullDisk_payload_fails (p : List Byte) (hp : p.length = 4090) :
    (binary.Write fullDiskStore.buf fullDiskStore.file (uint64 p.length)).2.2 = none ∧
      ((binary.Write fullDiskStore.buf fullDiskStore.file (uint64 p.length)).1.Write
        (binary.Write fullDiskStore.buf fullDiskStore.file (uint64 p.length)).2.1 p).2.2.2
        = some (Error.errno 28) := by
  have h1 : fullDiskStore.buf.Write fullDiskStore.file (enc.PutUint64 (uint64 p.length)) =
      ({ fullDiskStore.buf with buf := fullDiskStore.buf.buf ++ enc.PutUint64 (uint64 p.length) },
        fullDiskStore.file, 8, none) :=
    Writer.Write_fits _ _ _ rfl (by rw [enc.PutUint64_length]; decide)
  rw [binary.Write_eq, h1]
  refine ⟨rfl, ?_⟩
  dsimp only
  unfold Writer.Write
  simp [WriteLoop.run, WriteLoop.cond, WriteLoop.body, Writer.Available, Writer.Buffered,
    Writer.Flush, File.Write, File.writePos, writeCut, fullDiskStore, fullDiskFile, File.ofData,
    NewWriter, enc.PutUint64_length, hp, defaultBufSize, maxFileSize]

/-- C6 (a failed `Append` leaves the size alone). In every store state and for every payload
`p`: if the write of the length field fails with error `e`, or that write succeeds and the
write of the payload fails with error `e`, then `Append p` returns `(0, 0, e)`, the same error
unchanged, and the size of the store after the call is its size before the call. -/
theorem C6_append_failure (s : store) (p : List Byte) (e : Error)
    (h : (binary.Write s.buf s.file (uint64 p.length)).2.2 = some e ∨
      ((binary.Write s.buf s.file (uint64 p.length)).2.2 = none ∧
        ((binary.Write s.buf s.file (uint64 p.length)).1.Write
          (binary.Write s.buf s.file (uint64 p.length)).2.1 p).2.2.2 = some e)) :
    (s.Append p).2 = (0, 0, some e) ∧ (s.Append p).1.size = s.size := by
  unfold store.Append
  rcases h with h | ⟨h1, h2⟩
  · simp [h]
  · simp [h1, h2]

theorem C6_append_failure_witness :
    ((brokenStore.Append world).2 = (0, 0, some (Error.errno 28)) ∧
      (brokenStore.Append world).1.size = brokenStore.size) ∧
    ((fullDiskStore.Append (List.replicate 4090 0)).2 = (0, 0, some (Error.errno 28)) ∧
      (fullDiskStore.Append (List.replicate 4090 0)).1.size = fullDiskStore.size) :=
  ⟨C6_append_failure brokenStore world (Error.errno 28) (Or.inl (by decide)),
    C6_append_failure fullDiskStore (List.replicate 4090 0) (Error.errno 28)
      (Or.inr (fullDisk_payload_fails _ (List.length_replicate _ _)))⟩

theorem NewWriter_flush (f : File) : (NewWriter.Flush f).2.2 = none := rfl

/-- C7, as stated, fails in three ways. The disk is full: two bytes have been appended and are
in the buffer, so the logical content has ten bytes; `ReadAt` of two bytes at offset 8 lies
within the content, yet it returns no byte and the error of the flush. The handle is not at the
end of the file: over the file with the frame of `"hello"`, opened without `O_APPEND`,
`"world"` is appended; the content has 26 bytes and `ReadAt` of five bytes at offset 21 lies
within it; the flush succeeds, no read is made to fail, and `ReadAt` returns no byte and
`io.EOF`, because the flush has written the frame at offset `0`. The range ends past the
largest file offset: the file has `2^63 - 1` bytes, `ReadAt` of two bytes at offset `2^63 - 2`
runs one byte past the end of the content; one byte is there to read, and `ReadAt` returns no
byte and the error `EINVAL`. -/
theorem C7_counterexample :
    ((0 : Int) ≤ 8 ∧
      8 + ([0, 0] : List Byte).length ≤ (fullDiskStore.Append [104, 105]).1.content.length ∧
      ((fullDiskStore.Append [104, 105]).1.ReadAt [0, 0] 8).2 =
        ([0, 0], 0, some (Error.errno 28))) ∧
    ((rewoundStore.Append world).1.content.length = 26 ∧
      ((rewoundStore.Append world).1.buf.Flush (rewoundStore.Append world).1.file).2.2 = none ∧
      (rewoundStore.Append world).1.file.readsDoNotFail ∧
      ((rewoundStore.Append world).1.ReadAt [0, 0, 0, 0, 0] 21).2 =
        ([0, 0, 0, 0, 0], 0, some Error.EOF)) ∧
    (hugeStore.content.length = 2 ^ 63 - 1 ∧
      (hugeStore.buf.Flush hugeStore.file).2.2 = none ∧ hugeStore.file.readsDoNotFail ∧
      (hugeStore.ReadAt [0, 0] ((2 ^ 63 - 2 : Nat) : Int)).2 = ([0, 0], 0, some Error.EINVAL)) := by
  refine ⟨by decide, by decide, ?_, rfl, ⟨rfl, fun x hx => absurd hx (List.not_mem_nil x)⟩, ?_⟩
  · show (List.replicate maxFileSize (0 : Byte) ++ []).length = 2 ^ 63 - 1
    rw [List.append_nil, List.length_replicate]
    rfl
  · rw [store.ReadAt_of_flush _ _ _ (NewWriter_flush _)]
    exact File.ReadAt_einval hugeFile [0, 0] (2 ^ 63 - 2) rfl (List.cons_ne_nil _ _)
      (by decide)

/-- C7, amended (read-your-writes through `ReadAt`). Let `C` be the logical content of the
store, the bytes of the file followed by the buffered bytes. If the flush inside `ReadAt`
fails, `ReadAt` returns the buffer as it was, the count `0` and the error of the flush; if it
succeeds, `ReadAt` returns what the positional read of the file returns, count and error
unmodified. Provided the handle writes at the end of the file, the flush succeeds and the
positional read is not made to fail: for a buffer of length `L` and an offset `off ≥ 0` with
`off + L ≤ len C`, `ReadAt` returns `n = L`, no error, and the buffer filled with
`C[off .. off+L)`, also for bytes that were appended and never flushed before; if
`off + L > len C` and `off + L ≤ 2^63 - 1` (and `L > 0`) it returns the bytes there are, their
count, and the error of the positional read, `io.EOF`. A range that ends past `2^63 - 1` is
refused with `EINVAL` and no byte. -/
theorem C7_read_your_writes (s : store) (p : List Byte) (off : Nat) :
    (∀ e, (s.buf.Flush s.file).2.2 = some e → (s.ReadAt p off).2 = (p, 0, some e)) ∧
    ((s.buf.Flush s.file).2.2 = none →
      (s.ReadAt p off).2 = ((s.buf.Flush s.file).2.1.ReadAt p off).2) ∧
    (s.WF → s.file.atEnd → (s.buf.Flush s.file).2.2 = none → s.file.readsDoNotFail →
      off + p.length ≤ s.content.length →
      (s.ReadAt p off).2 = ((s.content.drop off).take p.length, p.length, none)) ∧
    (s.file.atEnd → (s.buf.Flush s.file).2.2 = none → s.file.readsDoNotFail →
      s.content.length < off + p.length → off + p.length ≤ maxFileSize → p ≠ [] →
      (s.ReadAt p off).2 =
        (s.content.drop off ++ p.drop (s.content.length - off), s.content.length - off,
          some Error.EOF)) ∧
    ((s.buf.Flush s.file).2.2 = none → s.file.closed = false →
      maxFileSize < off + p.length → p ≠ [] →
      (s.ReadAt p off).2 = (p, 0, some Error.EINVAL)) := by
  have hF := Writer.Flush_spec s.buf s.file
  refine ⟨fun e he => store.ReadAt_flush_error s p off e he,
    fun hflush => store.ReadAt_of_flush s p off hflush, ?_, ?_, ?_⟩
  · intro hwf hend hflush hr hle
    have hd := store.flushed_file s hend hflush
    rw [store.ReadAt_of_flush s p off hflush,
      File.ReadAt_clean _ p off (store.flushed_reads s hr) (hF.wf hwf.1)
        (by rw [hd]; exact hle), hd]
  · intro hend hflush hr hlt hmax hp
    have hd := store.flushed_file s hend hflush
    rw [store.ReadAt_of_flush s p off hflush,
      File.ReadAt_eof _ p off (store.flushed_reads s hr) hp (by rw [hd]; exact hlt) hmax, hd]
  · intro hflush hc hmax hp
    rw [store.ReadAt_of_flush s p off hflush,
      File.ReadAt_einval _ p off (hF.same.closed.trans hc) hp hmax]

theorem C7_read_your_writes_witness :
    ((emptyStore.Append hello).1.ReadAt [0, 0, 0] (8 : Nat)).2 = ([104, 101, 108], 3, none) ∧
      ((emptyStore.Append hello).1.ReadAt [0, 0, 0] (11 : Nat)).2 =
        ([108, 111, 0], 2, some Error.EOF) ∧
      ((fullDiskStore.Append hello).1.ReadAt [0, 0, 0] (8 : Nat)).2 =
        ([0, 0, 0], 0, some (Error.errno 28)) :=
  ⟨(C7_read_your_writes (emptyStore.Append hello).1 [0, 0, 0] 8).2.2.1 (by decide) (by decide)
      (by decide) (by decide) (by decide),
    (C7_read_your_writes (emptyStore.Append hello).1 [0, 0, 0] 11).2.2.2.1 (by decide)
      (by decide) (by decide) (by decide) (by decide) (by decide),
    (C7_read_your_writes (fullDiskStore.Append hello).1 [0, 0, 0] 8).1 (Error.errno 28)
      (by decide)⟩

/-- C8, as stated, fails in five ways. A read fails: `"hello"` is appended at position 0,
`Close` succeeds, the file is opened again with `O_APPEND` and `newStore` builds a fresh store
over it; the disk then fails to read, and `Read 0` on the fresh store returns that error
instead of `"hello"`. The file is opened again without `O_APPEND`: `"hello"` is appended to an
empty file and the store closed; on the fresh store `Append "world"` returns the position 13,
the end of the file, but its frame is written at offset `0`, over the frame of `"hello"`: the
file then holds the frame of `"world"` alone and `Read 0` returns `"world"`. The first store
did not write at the end of its file: over the file with the frame of `"hello"`, opened without
`O_APPEND`, `"world"` is appended at position 13 and `Close` succeeds; the closed store has
size 26, the fresh store, opened with `O_APPEND`, has size 13, and `Read 13` on it returns
`io.EOF`. The size of the first store was not the length of its file: over an open file of 13
bytes for which stat reported the length 0, `"world"` is appended at position 0 and `Close`
succeeds; the closed store has size 13, the fresh store has size 26, and `Read 0` on it
returns `"hello"`. The memory is short: a payload of one byte more than a gibibyte is appended
at position 0, `Close` succeeds, and `Read 0` on the fresh store ends the process with
`out of memory`. -/
theorem C8_counterexample :
    ((badSectorStore.Append hello).2 = (13, 0, none) ∧
      (badSectorStore.Append hello).1.Close.2 = none ∧
      newStore (File.reopen (badSectorStore.Append hello).1.Close.1.file true)
        = .ok reopenedStore ∧
      (reopenedStore.Read 0).2 = ReadResult.error (Error.errno 5)) ∧
    ((emptyStore.Append hello).2 = (13, 0, none) ∧ (emptyStore.Append hello).1.Close.2 = none ∧
      newStore (File.reopen (emptyStore.Append hello).1.Close.1.file false)
        = .ok overwritingStore ∧
      (overwritingStore.Read 0).2 = ReadResult.ok hello ∧
      (overwritingStore.Append world).2 = (13, 13, none) ∧
      ((overwritingStore.Append world).1.Read 0).2 = ReadResult.ok world ∧
      ((overwritingStore.Append world).1.Read 0).1.file.data = frame world) ∧
    ((rewoundStore.Append world).2 = (13, 13, none) ∧
      (rewoundStore.Append world).1.Close.2 = none ∧
      (rewoundStore.Append world).1.Close.1.size = 26 ∧
      newStore (File.reopen (rewoundStore.Append world).1.Close.1.file true)
        = .ok shrunkStore ∧
      shrunkStore.size = 13 ∧ (shrunkStore.Read 13).2 = ReadResult.error Error.EOF) ∧
    ((renamedStore.Append world).2 = (13, 0, none) ∧
      (renamedStore.Append world).1.Close.2 = none ∧
      (renamedStore.Append world).1.Close.1.size = 13 ∧
      newStore (File.reopen (renamedStore.Append world).1.Close.1.file true)
        = .ok grownStore ∧
      grownStore.size = 26 ∧ (grownStore.Read 0).2 = ReadResult.ok hello) ∧
    ((emptyStore.Append bigPayload).2.2.2 = none ∧ (emptyStore.Append bigPayload).2.2.1 = 0 ∧
      (emptyStore.Append bigPayload).1.Close.2 = none ∧
      newStore (File.reopen (emptyStore.Append bigPayload).1.Close.1.file true)
        = .ok bigResumedStore ∧
      bigResumedStore.file.readsDoNotFail ∧
      (bigResumedStore.Read 0).2 = ReadResult.fatal) :=
  ⟨⟨by decide, by decide, rfl, by decide⟩,
    ⟨by decide, by decide, rfl, by decide, by decide, by decide, by decide⟩,
    ⟨by decide, by decide, by decide, rfl, rfl, by decide⟩,
    ⟨by decide, by decide, by decide, rfl, rfl, by decide⟩,
    ⟨bigPayload_read_fatal.1, bigPayload_read_fatal.2.1, bigPayload_reopen_fatal.1,
      bigPayload_reopen_fatal.2.1, bigPayload_reopen_fatal.2.2.1,
      bigPayload_reopen_fatal.2.2.2⟩⟩

/-- C8, amended (durability and resumption after close). Take a store in a state the types
allow, in which `size` is the length of the file plus the number of buffered bytes and the
handle writes at the end of the file, and any sequence of calls on it, and let `Close` then
return no error. A fresh store built by `newStore` over the same file, opened again so that
the handle writes at the end of the file (with `O_APPEND`, or the file being empty), has the
size of the closed store, which is the length of the file; `Read pos` on it returns `p` for
every record `p` appended at `pos` during the sequence, provided the positional reads are not
made to fail and a slice of `len p` bytes can be allocated; and its first `Append`, when it
returns no error, returns the length of the file as its position and leaves the bytes already
in the file where they are. -/
theorem C8_durability (s0 : store) (ops : List Op) (mode : Bool) (u : store) (hs0 : s0.Tidy)
    (hclose : (run s0 ops).Close.2 = none)
    (hend : (File.reopen (run s0 ops).Close.1.file mode).atEnd)
    (hnew : newStore (File.reopen (run s0 ops).Close.1.file mode) = .ok u) :
    u.size = (run s0 ops).Close.1.size ∧
    u.size = (run s0 ops).Close.1.file.data.length ∧
    (u.file.readsDoNotFail → ∀ r ∈ records s0 ops, u.file.canAlloc r.2.length →
      (u.Read r.1).2 = ReadResult.ok r.2) ∧
    (∀ q, (u.Append q).2.2.2 = none →
      (u.Append q).2.2.1 = (run s0 ops).Close.1.file.data.length ∧
        (run s0 ops).Close.1.file.data <+: (u.Append q).1.file.data) := by
  have hg := store.Tidy_run hs0 ops
  have hE := store.Close_effect (run s0 ops)
  have hflush := store.Close_ok_flush _ hclose
  have herr : (run s0 ops).buf.err = none :=
    ((Writer.Flush_spec (run s0 ops).buf (run s0 ops).file).ok hflush).2
  have hsz := (store.SizeInv_iff _).mp (hg.2.2 herr)
  have hdata := hE.flushed_end hg.2.1 hflush
  have hwf := hE.wf hg.1.1
  generalize (run s0 ops).Close.1 = t at hE hdata hwf hnew hend ⊢
  have hf : (File.reopen t.file mode).data.length ≤ maxFileSize := hwf
  obtain ⟨hug, husz, hub, huf⟩ := newStore_tidy hf hend rfl hnew
  have hulen : u.size = t.file.data.length := by
    rw [(store.SizeInv_iff u).mp husz, store.content, hub, huf]
    simp [NewWriter, File.reopen]
  have hud : u.file.data = t.file.data := by rw [huf]; rfl
  refine ⟨?_, hulen, ?_, ?_⟩
  · rw [hulen, hE.size, hsz, hdata]
  · intro hreads r hr' hp
    obtain ⟨a, c, hc, ha⟩ := records_mem_content hs0 ops r hr'
    rw [store.Read_frame u r.1 r.2 a c (by rw [hub]; exact NewWriter_flush _) hug.2.1
      (by rw [hud]; exact hwf) _ ha hreads hp.1, if_neg (Nat.not_lt.mpr hp.2)]
    rw [store.content, hub, hud, hdata, hc]
    simp [NewWriter]
  · intro q hq
    have hs := store.Append_spec u q
    refine ⟨by rw [(hs.ok hq).2.2.1, hulen], ?_⟩
    rw [← hud]
    exact hs.file_grow hug.2.1

theorem C8_durability_witness :
    resumedStore.size = (run emptyStore [Op.append hello, Op.append world]).Close.1.size ∧
      (resumedStore.Read 13).2 = ReadResult.ok world ∧
      (resumedStore.Append hello).2.2.1 =
        (run emptyStore [Op.append hello, Op.append world]).Close.1.file.data.length :=
  ⟨(C8_durability emptyStore [Op.append hello, Op.append world] true resumedStore
      (by decide) (by decide) (by decide) rfl).1,
    (C8_durability emptyStore [Op.append hello, Op.append world] true resumedStore
      (by decide) (by decide) (by decide) rfl).2.2.1
      (by decide) (13, world) (by decide) (by decide),
    ((C8_durability emptyStore [Op.append hello, Op.append world] true resumedStore
      (by decide) (by decide) (by decide) rfl).2.2.2
      hello (by decide)).1⟩

/-- C9, as stated, fails in five ways. The disk is full: `"hello"` is appended at position 0;
no other call follows; `Read 0` does not return `"hello"` but the error of its flush. The
handle is not at the end of the file: over the file with the frame of `"hello"`, opened
without `O_APPEND`, `"world"` is appended at position 13; `Read 0` follows and succeeds (it
returns `"world"`); `Read 13` then returns `io.EOF`, though its flush succeeds and no read is
made to fail. That `Read 0` has also changed the logical content below the size of the store,
26: the byte at offset 12 was `o` and is `d`. The memory is short: a payload of one byte more
than a gibibyte is appended at position 0 on the store over an empty file; no other call
follows; `Read 0` ends the process with `out of memory`. The size is not the length of the
file: over an open file of 13 bytes for which stat reported the length 0, `"world"` is
appended at position 0; no other call follows; `Read 0` returns `"hello"`, the record the file
held at that offset. -/
theorem C9_counterexample :
    ((fullDiskStore.Append hello).2 = (13, 0, none) ∧
      allSucceed (fullDiskStore.Append hello).1 [] = true ∧
      ((run (fullDiskStore.Append hello).1 []).Read 0).2 =
        ReadResult.error (Error.errno 28)) ∧
    (rewoundStore.WF ∧ rewoundStore.SizeInv ∧
      (rewoundStore.Append world).2 = (13, 13, none) ∧
      allSucceed (rewoundStore.Append world).1 [Op.read 0] = true ∧
      ((run (rewoundStore.Append world).1 [Op.read 0]).buf.Flush
        (run (rewoundStore.Append world).1 [Op.read 0]).file).2.2 = none ∧
      (run (rewoundStore.Append world).1 [Op.read 0]).file.readsDoNotFail ∧
      ((run (rewoundStore.Append world).1 [Op.read 0]).Read 13).2 =
        ReadResult.error Error.EOF) ∧
    ((rewoundStore.Append world).1.size = 26 ∧
      (rewoundStore.Append world).1.content[12]? = some 111 ∧
      (step (rewoundStore.Append world).1 (Op.read 0)).content[12]? = some 100) ∧
    (emptyStore.WF ∧ emptyStore.SizeInv ∧ emptyStore.file.atEnd ∧
      (emptyStore.Append bigPayload).2.2.2 = none ∧ (emptyStore.Append bigPayload).2.2.1 = 0 ∧
      allSucceed (emptyStore.Append bigPayload).1 [] = true ∧
      ((emptyStore.Append bigPayload).1.buf.Flush (emptyStore.Append bigPayload).1.file).2.2
        = none ∧
      (emptyStore.Append bigPayload).1.file.readsDoNotFail ∧
      ((emptyStore.Append bigPayload).1.Read 0).2 = ReadResult.fatal) ∧
    (renamedStore.WF ∧ renamedStore.file.atEnd ∧
      (renamedStore.Append world).2 = (13, 0, none) ∧
      allSucceed (renamedStore.Append world).1 [] = true ∧
      ((run (renamedStore.Append world).1 []).Read 0).2 = ReadResult.ok hello) :=
  ⟨⟨by decide, rfl, by decide⟩,
    ⟨by decide, by decide, by decide, by decide, by decide, by decide, by decide⟩,
    ⟨by decide, by decide, by decide⟩,
    ⟨by decide, by decide, by decide, bigPayload_read_fatal.1, bigPayload_read_fatal.2.1, rfl,
      bigPayload_read_fatal.2.2.1, bigPayload_read_fatal.2.2.2.1,
      bigPayload_read_fatal.2.2.2.2.2.2.2⟩,
    ⟨by decide, by decide, by decide, rfl, by decide⟩⟩

/-- C9, amended (records are immutable once appended). In every store state the types allow
in which `size` is the length of the file plus the buffered bytes and the handle writes at the
end of the file: if `Append p` returns no error and position `pos`, then after any further
sequence of `Append`, `Read` and `ReadAt` calls that return no error, `Read pos` still returns
exactly `p`, provided the flush inside that `Read` succeeds, its positional reads are not made
to fail, and a slice of `len p` bytes can be allocated. And where the handle writes at the end
of the file no call changes the logical content it finds: the content before the call is a
prefix of the content after it, so every byte below the size the store had stays as it is. -/
theorem C9_immutable (s : store) (p : List Byte) (ops : List Op) (hwf : s.WF)
    (hsize : s.SizeInv) (hend : s.file.atEnd) (hp : s.file.canAlloc p.length)
    (happ : (s.Append p).2.2.2 = none) (_hsucc : allSucceed (s.Append p).1 ops = true) :
    (((run (s.Append p).1 ops).buf.Flush (run (s.Append p).1 ops).file).2.2 = none →
      (run (s.Append p).1 ops).file.readsDoNotFail →
      ((run (s.Append p).1 ops).Read (s.Append p).2.2.1).2 = ReadResult.ok p) ∧
    (∀ (t : store) (op : Op), t.file.atEnd → t.content <+: (step t op).content) := by
  refine ⟨?_, fun t op h => store.content_step t op h⟩
  intro hflush hreads
  have hg : s.Tidy := ⟨hwf, hend, fun _ => hsize⟩
  have h2 := store.Append_ok_tidy hg happ
  have hs := store.Append_spec s p
  have hend1 : (s.Append p).1.file.atEnd := hs.atEnd hend
  have hwf1 : (s.Append p).1.WF := ⟨hs.wf hwf.1, hs.buf_le hwf.2⟩
  have hwfN := store.WF_run hwf1 ops
  obtain ⟨c, hc⟩ := store.content_run (s.Append p).1 ops hend1
  have hmem : ¬ ((run (s.Append p).1 ops).file.mem < p.length) := by
    rw [run_mem, hs.same.mem]
    exact Nat.not_lt.mpr hp.2
  rw [store.Read_frame _ _ p s.content c hflush (store.atEnd_run hend1 ops) hwfN.1 _
    h2.2.2.1.symm hreads hp.1, if_neg hmem]
  rw [← hc, h2.2.2.2.2.2, List.append_assoc]

theorem C9_immutable_witness :
    ((run (emptyStore.Append hello).1 [Op.append world, Op.read 13, Op.readAt [0, 0] 3]).Read
      (emptyStore.Append hello).2.2.1).2 = ReadResult.ok hello :=
  (C9_immutable emptyStore hello [Op.append world, Op.read 13, Op.readAt [0, 0] 3] (by decide)
    (by decide) (by decide) (by decide) (by decide) (by decide)).1 (by decide) (by decide)

theorem int64_cases (u : Nat) (h : u < 2 ^ 64) :
    (u < 2 ^ 63 ∧ int64 u = (u : Int)) ∨ int64 u < 0 := by
  have h1 : u % 2 ^ 64 = u := Nat.mod_eq_of_lt h
  by_cases hu : u < 2 ^ 63
  · exact Or.inl ⟨hu, int64_of_lt u hu⟩
  · right
    unfold int64
    rw [h1, if_neg hu]
    omega

theorem store.Read_error_of_first (s : store) (pos : Nat)
    (hflush : (s.buf.Flush s.file).2.2 = none)
    (h : ((s.buf.Flush s.file).2.1.ReadAt (List.replicate lenWidth 0) (int64 pos)).2.2.2 ≠ none) :
    ∃ e, (s.Read pos).2 = ReadResult.error e := by
  unfold store.Read
  dsimp only
  rw [hflush]
  dsimp only
  cases he : ((s.buf.Flush s.file).2.1.ReadAt (List.replicate lenWidth 0) (int64 pos)).2.2.2 with
  | none => exact absurd he h
  | some e => exact ⟨e, rfl⟩

/-- C10, as stated, fails in five ways. A length out of range: after `Append` of eight bytes
`0xFF` the logical content has 16 bytes; the eight bytes at position 8 decode to `2^64 - 1`,
which runs far past the end, and `Read 8` does not return an error: it panics in `make`. A
length the memory cannot hold: after `Append "hello"` the content has 13 bytes; the eight
bytes at position 5 decode to 5945936342127, which runs past the end, and `Read 5` does not
return an error: the process ends with `out of memory`. The converse without a flush that
succeeds: an empty record is appended on a store whose disk is full, its frame is the whole
logical content, and `Read 0` returns the error of the flush instead of the empty slice. The
converse with a handle that is not at the end of the file: over the file with the frame of
`"hello"`, opened without `O_APPEND`, an empty record is appended at position 13; its length
field is the last eight bytes of the content; the flush succeeds, no read is made to fail, and
`Read 13` returns `io.EOF`. A handle past the end of the file: over an empty file whose handle
is at offset 9, a record of one zero byte is appended; the content has nine bytes; `Read 5`
runs past its end, and at position 1 the content holds the length 256, which runs past its end
too; both return the empty slice and no error, read from the zero bytes that fill the gap the
flush left before the frame. -/
theorem C10_counterexample :
    ((emptyStore.Append (List.replicate 8 255)).1.content.length = 16 ∧
      enc.Uint64 (((emptyStore.Append (List.replicate 8 255)).1.content.drop 8).take 8)
        = 2 ^ 64 - 1 ∧
      ((emptyStore.Append (List.replicate 8 255)).1.Read 8).2 = ReadResult.panic) ∧
    ((emptyStore.Append hello).1.content.length = 13 ∧
      enc.Uint64 (((emptyStore.Append hello).1.content.drop 5).take 8) = 5945936342127 ∧
      5945936342127 ≤ maxAlloc ∧
      ((emptyStore.Append hello).1.Read 5).2 = ReadResult.fatal) ∧
    ((fullDiskStore.Append []).1.content = enc.PutUint64 0 ∧
      ((fullDiskStore.Append []).1.Read 0).2 = ReadResult.error (Error.errno 28)) ∧
    ((rewoundStore.Append []).2 = (8, 13, none) ∧
      (rewoundStore.Append []).1.content.length = 13 + 8 ∧
      (rewoundStore.Append []).1.content.drop 13 = enc.PutUint64 0 ∧
      ((rewoundStore.Append []).1.buf.Flush (rewoundStore.Append []).1.file).2.2 = none ∧
      (rewoundStore.Append []).1.file.readsDoNotFail ∧
      ((rewoundStore.Append []).1.Read 13).2 = ReadResult.error Error.EOF) ∧
    (newStore seekedFile = .ok seekedStore ∧ (seekedStore.Append [0]).2 = (9, 0, none) ∧
      (seekedStore.Append [0]).1.content.length = 9 ∧
      ((seekedStore.Append [0]).1.Read 5).2 = ReadResult.ok [] ∧
      enc.Uint64 (((seekedStore.Append [0]).1.content.drop 1).take 8) = 256 ∧
      ((seekedStore.Append [0]).1.Read 1).2 = ReadResult.ok [] ∧
      ((seekedStore.Append [0]).1.Read 1).1.file.data = List.replicate 9 0 ++ frame [0]) :=
  ⟨by decide, by decide, by decide, by decide,
    ⟨rfl, by decide, by decide, by decide, by decide, by decide, by decide⟩⟩

/-- C10, amended (`Read` rejects positions that run past the end). Let `C` be the logical
content of a store whose handle writes at the end of the file, and `pos` a position. If
`pos + 8 > len C`, `Read pos` returns an error and no data. If the eight bytes at `pos` lie in
`C` and decode to a length `n` that `make` can allocate (`n` is within `maxAlloc` and within
the memory that is left), with `pos + 8 + n > len C`, `Read pos` returns an error and no data.
Conversely, when the eight bytes at `pos` are the last eight bytes of `C` and encode the length
zero, `Read pos` returns the empty slice, provided the flush succeeds and the positional reads
are not made to fail. -/
theorem C10_read_past_end (s : store) (pos : Nat) (hpos : pos < 2 ^ 64) (hend : s.file.atEnd) :
    (s.content.length < pos + 8 → ∃ e, (s.Read pos).2 = ReadResult.error e) ∧
    (pos + 8 ≤ s.content.length →
      s.file.canAlloc (enc.Uint64 ((s.content.drop pos).take 8)) →
      s.content.length < pos + 8 + enc.Uint64 ((s.content.drop pos).take 8) →
      ∃ e, (s.Read pos).2 = ReadResult.error e) ∧
    (s.WF → (s.buf.Flush s.file).2.2 = none → s.file.readsDoNotFail →
      s.content.length = pos + 8 → s.content.drop pos = enc.PutUint64 0 →
      (s.Read pos).2 = ReadResult.ok []) := by
  have hlw : lenWidth = 8 := rfl
  refine ⟨?_, ?_, ?_⟩
  · intro hlt
    cases hflush : (s.buf.Flush s.file).2.2 with
    | some e => exact ⟨e, store.Read_flush_error s pos e hflush⟩
    | none =>
      apply store.Read_error_of_first s pos hflush
      apply File.ReadAt_past_end _ _ _ (by simp [lenWidth])
      rw [store.flushed_file s hend hflush, List.length_replicate]
      rcases int64_cases pos hpos with ⟨_, h⟩ | h
      · right; rw [h]; omega
      · left; exact h
  · intro hle hn hlt
    cases hflush : (s.buf.Flush s.file).2.2 with
    | some e => exact ⟨e, store.Read_flush_error s pos e hflush⟩
    | none =>
      have hd := store.flushed_file s hend hflush
      have hFm : (s.buf.Flush s.file).2.1.mem = s.file.mem :=
        (Writer.Flush_spec s.buf s.file).same.mem
      cases he1 : ((s.buf.Flush s.file).2.1.ReadAt (List.replicate lenWidth 0)
          (int64 pos)).2.2.2 with
      | some e => exact store.Read_error_of_first s pos hflush (by rw [he1]; simp)
      | none =>
        have h1 := File.ReadAt_ok _ _ _ he1
        have hF1 := (File.ReadAt_file (s.buf.Flush s.file).2.1 (List.replicate lenWidth 0)
          (int64 pos)).1
        have hp63 : pos < 2 ^ 63 ∧ int64 pos = (pos : Int) := by
          rcases int64_cases pos hpos with h | h
          · exact h
          · exact absurd h1.1 (by omega)
        have hsz : ((s.buf.Flush s.file).2.1.ReadAt (List.replicate lenWidth 0)
            (int64 pos)).2.1 = (s.content.drop pos).take 8 := by
          rw [h1.2.1, hd, hp63.2, Int.toNat_ofNat, List.length_replicate, hlw]
        have hmod : (pos + lenWidth) % 2 ^ 64 = pos + 8 :=
          Nat.mod_eq_of_lt (by rw [hlw]; omega)
        have h2 : (((s.buf.Flush s.file).2.1.ReadAt (List.replicate lenWidth 0)
            (int64 pos)).1.ReadAt
              (List.replicate (enc.Uint64 ((s.content.drop pos).take 8)) 0)
              (int64 ((pos + lenWidth) % 2 ^ 64))).2.2.2 ≠ none := by
          apply File.ReadAt_past_end
          · intro h0
            have := congrArg List.length h0
            simp only [List.length_replicate, List.length_nil] at this
            omega
          · rw [hF1.data, hd, List.length_replicate, hmod]
            rcases int64_cases (pos + 8) (by omega) with ⟨_, h⟩ | h
            · right; rw [h]; omega
            · left; exact h
        unfold store.Read
        dsimp only
        rw [hflush]
        dsimp only
        rw [he1]
        dsimp only
        rw [hsz, if_neg (Nat.not_lt.mpr hn.1), hF1.mem, hFm, if_neg (Nat.not_lt.mpr hn.2)]
        cases he2 : (((s.buf.Flush s.file).2.1.ReadAt (List.replicate lenWidth 0)
            (int64 pos)).1.ReadAt
              (List.replicate (enc.Uint64 ((s.content.drop pos).take 8)) 0)
              (int64 ((pos + lenWidth) % 2 ^ 64))).2.2.2 with
        | none => exact absurd he2 h2
        | some e => exact ⟨e, rfl⟩
  · intro hwf hflush hreads hlen hz
    rw [store.Read_frame s pos [] (s.content.take pos) [] hflush hend hwf.1 _ _ hreads
      (Nat.zero_le _), List.length_nil, if_neg (Nat.not_lt_zero _)]
    · have hf : frame [] = enc.PutUint64 0 := rfl
      rw [hf, List.append_nil, ← hz, List.take_append_drop]
    · rw [List.length_take]; omega

theorem C10_read_past_end_witness :
    (∃ e, ((emptyStore.Append hello).1.Read 6).2 = ReadResult.error e) ∧
      (∃ e, ((emptyStore.Append [0, 0, 0, 0, 0, 0, 0, 9]).1.Read 8).2 = ReadResult.error e) ∧
      (((emptyStore.Append hello).1.Append []).1.Read 13).2 = ReadResult.ok [] :=
  ⟨(C10_read_past_end (emptyStore.Append hello).1 6 (by decide) (by decide)).1 (by decide),
    (C10_read_past_end (emptyStore.Append [0, 0, 0, 0, 0, 0, 0, 9]).1 8 (by decide)
      (by decide)).2.1 (by decide) (by decide) (by decide),
    (C10_read_past_end ((emptyStore.Append hello).1.Append []).1 13
      (by decide) (by decide)).2.2 (by decide) (by decide) (by decide) (by decide) (by decide)⟩

/-- On a full disk, with an empty buffer, a failed `Append` of 4090 bytes leaves 4096 bytes
in the buffer, the length field among them, and the size at zero. -/
theorem fullDisk_append_leaves (p : List Byte) (hp : p.length = 4090) :
    (fullDiskStore.Append p).2.2.2 = some (Error.errno 28) ∧
      (fullDiskStore.Append p).1.buf.buf.length = 4096 ∧
      (fullDiskStore.Append p).1.size = 0 := by
  have h1 : fullDiskStore.buf.Write fullDiskStore.file (enc.PutUint64 (uint64 p.length)) =
      ({ fullDiskStore.buf with buf := fullDiskStore.buf.buf ++ enc.PutUint64 (uint64 p.length) },
        fullDiskStore.file, 8, none) :=
    Writer.Write_fits _ _ _ rfl (by rw [enc.PutUint64_length]; decide)
  unfold store.Append
  rw [binary.Write_eq, h1]
  dsimp only
  unfold Writer.Write
  simp [WriteLoop.run, WriteLoop.cond, WriteLoop.body, Writer.Available, Writer.Buffered,
    Writer.Flush, File.Write, File.writePos, writeCut, fullDiskStore, fullDiskFile, File.ofData,
    NewWriter, enc.PutUint64_length, hp, defaultBufSize, maxFileSize]

/-- C11, as stated, fails. A store built over a file that already holds 13 bytes has size 13
before any `Append` has written a byte through it. And on a full disk a failed `Append` of
4090 bytes has put 4096 bytes in the buffer, while the size stays 0. -/
theorem C11_counterexample :
    (newStore helloFile = .ok helloStore ∧ helloStore.size = 13 ∧
      records helloStore [] = []) ∧
    ((fullDiskStore.Append (List.replicate 4090 0)).2.2.2 = some (Error.errno 28) ∧
      (fullDiskStore.Append (List.replicate 4090 0)).1.buf.buf.length = 4096 ∧
      (fullDiskStore.Append (List.replicate 4090 0)).1.size = 0) :=
  ⟨⟨rfl, rfl, rfl⟩, fullDisk_append_leaves _ (List.length_replicate _ _)⟩

/-- C11, amended (the size invariant). At every point in the life of a store returned by
`newStore`, after any sequence of calls, `size` equals the length stat reported for the file
when the store was created plus `8 + len p` for every `Append p` on that store that returned no
error, whether those bytes are in the file or still in the buffer. (The file is one `newStore`
can be given without the counter wrapping, `File.Fits`.) -/
theorem C11_size_invariant (f : File) (s : store) (ops : List Op) (hf : f.Fits)
    (hnew : newStore f = .ok s) :
    (run s ops).size = f.statSize + ((records s ops).map fun r => 8 + r.2.length).sum := by
  have hg := newStore_good hf hnew
  have h0 : s.size = f.statSize := by
    rw [(newStore_ok hnew).2]
    have := hf.2
    exact uint64_of_lt (by omega)
  rw [run_size hg.1 ops, h0]
  rfl

theorem C11_size_invariant_witness :
    (run helloStore [Op.append world, Op.read 0, Op.append []]).size =
      helloFile.statSize +
        ((records helloStore [Op.append world, Op.read 0, Op.append []]).map
          fun r => 8 + r.2.length).sum ∧
    (run helloStore [Op.append world, Op.read 0, Op.append []]).size = 34 :=
  ⟨C11_size_invariant helloFile helloStore [Op.append world, Op.read 0, Op.append []]
      (by decide) rfl, by decide⟩

/-- C12 (order and errors of `Close`). `Close` first flushes the buffer. If the flush fails,
`Close` returns exactly the error of the flush and does not close the file: the file is left as
the flush left it, its handle as open as before. If the flush succeeds, every buffered byte is
in the file, written at the write position of the handle (so after the bytes of the file when
the handle is at its end), the buffer is empty, and `Close` returns exactly what closing the
file returns. -/
theorem C12_close (s : store) :
    (∀ e, (s.buf.Flush s.file).2.2 = some e →
      s.Close.2 = some e ∧ s.Close.1.file = (s.buf.Flush s.file).2.1 ∧
        s.Close.1.file.closed = s.file.closed) ∧
    ((s.buf.Flush s.file).2.2 = none →
      (s.buf.Flush s.file).2.1.data = overwrite s.file.data s.file.writePos s.buf.buf ∧
        s.Close.1.file.data = overwrite s.file.data s.file.writePos s.buf.buf ∧
        (s.file.atEnd → s.Close.1.file.data = s.file.data ++ s.buf.buf) ∧
        s.Close.1.buf.buf = [] ∧
        s.Close.2 = (s.buf.Flush s.file).2.1.Close.2 ∧
        s.Close.1.file = (s.buf.Flush s.file).2.1.Close.1) := by
  have hF := Writer.Flush_spec s.buf s.file
  constructor
  · intro e he
    unfold store.Close
    dsimp only
    rw [he]
    exact ⟨rfl, rfl, hF.same.closed⟩
  · intro he
    have hE := store.Close_effect s
    refine ⟨hF.data he, (hE.flushed he).2, fun hend => hE.flushed_end hend he,
      (hE.flushed he).1, ?_, ?_⟩
    · unfold store.Close
      dsimp only
      rw [he]
    · unfold store.Close
      dsimp only
      rw [he]

theorem C12_close_witness :
    ((fullDiskStore.Append hello).1.Close.2 = some (Error.errno 28) ∧
      (fullDiskStore.Append hello).1.Close.1.file.closed = false) ∧
    ((emptyStore.Append hello).1.Close.2 = none ∧
      (emptyStore.Append hello).1.Close.1.file.data = frame hello ∧
      (emptyStore.Append hello).1.Close.1.file.closed = true) :=
  ⟨⟨((C12_close (fullDiskStore.Append hello).1).1 (Error.errno 28) (by decide)).1,
      ((C12_close (fullDiskStore.Append hello).1).1 (Error.errno 28) (by decide)).2.2⟩,
    ((C12_close (emptyStore.Append hello).1).2 (by decide)).2.2.2.2.1,
    ((C12_close (emptyStore.Append hello).1).2 (by decide)).2.2.1 (by decide), by decide⟩

/-- C13 (construction). `newStore f` returns an error, and no store, exactly when the stat of
the file fails, and then it is the error of the stat. Otherwise it returns a store whose size is
the length of the file as the stat reports it, whose buffer is empty and without error, and
whose file is `f`, its contents unchanged. Where stat reports the length of the bytes behind
the handle, that length is the size. -/
theorem C13_construction (f : File) :
    ((∃ e, newStore f = .error e) ↔ ∃ e, f.Stat = .error e) ∧
    (∀ e, f.Stat = .error e → newStore f = .error e) ∧
    (∀ n, f.Stat = .ok n →
      ∃ s, newStore f = .ok s ∧ s.size = uint64 n.toNat ∧ s.buf = NewWriter ∧ s.file = f) ∧
    (∀ s, newStore f = .ok s →
      s.size = uint64 f.statSize ∧ s.buf.buf = [] ∧ s.buf.err = none ∧ s.file.data = f.data ∧
        (f.statSize = f.data.length → f.data.length ≤ maxFileSize →
          s.size = f.data.length)) := by
  refine ⟨?_, ?_, ?_, ?_⟩
  · unfold newStore
    cases f.Stat with
    | error e => simp
    | ok n => simp
  · intro e he
    unfold newStore
    rw [he]
  · intro n hn
    unfold newStore
    rw [hn]
    exact ⟨_, rfl, rfl, rfl, rfl⟩
  · intro s hs
    obtain ⟨_, rfl⟩ := newStore_ok hs
    refine ⟨rfl, rfl, rfl, rfl, fun hstat hf => ?_⟩
    have hmf : maxFileSize = 2 ^ 63 - 1 := rfl
    show uint64 f.statSize = f.data.length
    rw [hstat]
    exact uint64_of_lt (by omega)

theorem C13_construction_witness :
    helloStore.size = helloFile.data.length ∧
      (∃ s, newStore helloFile = .ok s ∧ s.size = uint64 (13 : Int).toNat ∧
        s.buf = NewWriter ∧ s.file = helloFile) :=
  ⟨((C13_construction helloFile).2.2.2 helloStore rfl).2.2.2.2 (by decide) (by decide),
    (C13_construction helloFile).2.2.1 13 rfl⟩

/-- C14 (the concrete scenario). On the store `newStore` gives over an empty file,
`Append "hello"` returns `(13, 0, nil)` and `Read 0` returns `"hello"`; then `Append "world"`
returns `(13, 13, nil)` and `Read 13` returns `"world"`; the size at the end is 26. -/
theorem C14_scenario :
    newStore (File.ofData []) = .ok emptyStore ∧
    (emptyStore.Append hello).2 = (13, 0, none) ∧
    ((emptyStore.Append hello).1.Read 0).2 = ReadResult.ok hello ∧
    (((emptyStore.Append hello).1.Read 0).1.Append world).2 = (13, 13, none) ∧
    ((((emptyStore.Append hello).1.Read 0).1.Append world).1.Read 13).2 = ReadResult.ok world ∧
    ((((emptyStore.Append hello).1.Read 0).1.Append world).1.Read 13).1.size = 26 :=
  ⟨rfl, by decide, by decide, by decide, by decide, by decide⟩

/-- `Read` panics only in `make`: the flush and the read of the length field have succeeded
and the length decoded is more than `make` can allocate. -/
theorem store.Read_panic (s : store) (pos : Nat) (h : (s.Read pos).2 = ReadResult.panic) :
    (s.buf.Flush s.file).2.2 = none ∧
      ((s.buf.Flush s.file).2.1.ReadAt (List.replicate lenWidth 0) (int64 pos)).2.2.2 = none ∧
      maxAlloc < enc.Uint64
        ((s.buf.Flush s.file).2.1.ReadAt (List.replicate lenWidth 0) (int64 pos)).2.1 := by
  unfold store.Read at h
  dsimp only at h
  split at h
  · cases h
  · rename_i hfl
    split at h
    · cases h
    · rename_i hr1
      split at h
      · rename_i hn
        exact ⟨hfl, hr1, hn⟩
      · split at h
        · cases h
        · split at h <;> cases h

/-- A position from `2^63` on is a negative offset: `Read` returns an error, it does not
abort. -/
theorem store.Read_high_pos (s : store) (pos : Nat) (hlo : 2 ^ 63 ≤ pos) (hhi : pos < 2 ^ 64) :
    ∃ e, (s.Read pos).2 = ReadResult.error e := by
  cases hflush : (s.buf.Flush s.file).2.2 with
  | some e => exact ⟨e, store.Read_flush_error s pos e hflush⟩
  | none =>
    apply store.Read_error_of_first s pos hflush
    apply File.ReadAt_past_end _ _ _ (by simp [lenWidth])
    rcases int64_cases pos hhi with ⟨h, _⟩ | h
    · omega
    · left; exact h

/-- C16: the code at the failing input. The eight bytes `80 00 00 00 00 00 00 00` are appended
as a record at position 0; position 8 is where the payload starts, not a frame. The eight bytes
there decode to `2^63`, and `Read 8` neither returns a slice nor an error: it panics in
`make`. -/
theorem C16_read_panics :
    (emptyStore.Append [128, 0, 0, 0, 0, 0, 0, 0]).2 = (16, 0, none) ∧
      enc.Uint64 [128, 0, 0, 0, 0, 0, 0, 0] = 2 ^ 63 ∧
      ((emptyStore.Append [128, 0, 0, 0, 0, 0, 0, 0]).1.Read 8).2 = ReadResult.panic := by
  decide

theorem store.Read_buf (s : store) (pos : Nat) :
    (s.Read pos).1.buf = (s.buf.Flush s.file).1 ∧
      (s.Read pos).1.file.closed = s.file.closed := by
  have hF := Writer.Flush_spec s.buf s.file
  have h1 := File.ReadAt_file (s.buf.Flush s.file).2.1 (List.replicate lenWidth 0) (int64 pos)
  have h2 := File.ReadAt_file
    ((s.buf.Flush s.file).2.1.ReadAt (List.replicate lenWidth 0) (int64 pos)).1
    (List.replicate (enc.Uint64
      ((s.buf.Flush s.file).2.1.ReadAt (List.replicate lenWidth 0) (int64 pos)).2.1) 0)
    (int64 ((pos + lenWidth) % 2 ^ 64))
  unfold store.Read
  dsimp only
  split
  · exact ⟨rfl, hF.same.closed⟩
  · split
    · exact ⟨rfl, h1.2.trans hF.same.closed⟩
    · split
      · exact ⟨rfl, h1.2.trans hF.same.closed⟩
      · split
        · exact ⟨rfl, h1.2.trans hF.same.closed⟩
        · split <;> exact ⟨rfl, (h2.2.trans h1.2).trans hF.same.closed⟩

theorem store.ReadAt_buf (s : store) (p : List Byte) (off : Int) :
    (s.ReadAt p off).1.buf = (s.buf.Flush s.file).1 ∧
      (s.ReadAt p off).1.file.closed = s.file.closed := by
  have hF := Writer.Flush_spec s.buf s.file
  have h1 := File.ReadAt_file (s.buf.Flush s.file).2.1 p off
  unfold store.ReadAt
  dsimp only
  split
  · exact ⟨rfl, hF.same.closed⟩
  · exact ⟨rfl, h1.2.trans hF.same.closed⟩

theorem Writer.flushed_eq (b : Writer) (f : File) (h : (b.Flush f).2.2 = none) :
    (b.Flush f).1 = { err := none, buf := [] } := by
  have hF := Writer.Flush_spec b f
  have h1 := (hF.ok h).1
  have h2 : (b.Flush f).1.err = none := hF.err.symm.trans h
  cases hb : (b.Flush f).1 with
  | mk e l =>
    rw [hb] at h1 h2
    simp only at h1 h2
    rw [h1, h2]

theorem store.SizeInv_of_effect {s t : store} (h : store.ReadEffect s t) (hend : s.file.atEnd)
    (hs : s.SizeInv) : t.SizeInv := by
  rw [store.SizeInv_iff, h.size, h.content hend]
  exact (store.SizeInv_iff s).mp hs

/-- C17, as stated, fails in two ways. Stat goes by the name of the file: over an open file of
13 bytes whose name no longer leads to it, stat reports the length 0 and `newStore` returns a
store of size 0, with 13 bytes in the file and none in the buffer. The handle is not at the end
of the file: over the file with the frame of `"hello"`, opened without `O_APPEND`, the
predicate holds of the store `newStore` returns, and of the store after `Append "world"`, which
returns the position 13; after the `Read` that follows, whose flush succeeds, the size is 26,
the file has 13 bytes and the buffer none; and the frame of `"world"` lies at offset 0 of the
file, not at offset 13. -/
theorem C17_counterexample :
    (newStore renamedFile = .ok renamedStore ∧ renamedStore.file.data.length = 13 ∧
      renamedStore.buf.buf.length = 0 ∧ renamedStore.size = 0 ∧ ¬ renamedStore.SizeInv) ∧
    (newStore rewoundFile = .ok rewoundStore ∧ rewoundStore.WF ∧ rewoundStore.SizeInv ∧
      (rewoundStore.Append world).2 = (13, 13, none) ∧
      (rewoundStore.Append world).1.SizeInv ∧
      ((rewoundStore.Append world).1.buf.Flush (rewoundStore.Append world).1.file).2.2 = none ∧
      ((rewoundStore.Append world).1.Read 13).1.size = 26 ∧
      ((rewoundStore.Append world).1.Read 13).1.file.data.length = 13 ∧
      ((rewoundStore.Append world).1.Read 13).1.buf.buf.length = 0 ∧
      ¬ ((rewoundStore.Append world).1.Read 13).1.SizeInv ∧
      ((rewoundStore.Append world).1.buf.Flush (rewoundStore.Append world).1.file).2.1.data
        = frame world) :=
  ⟨⟨rfl, by decide, by decide, by decide, by decide⟩,
    ⟨rfl, by decide, by decide, by decide, by decide, by decide, by decide, by decide,
      by decide, by decide, by decide⟩⟩

/-- C17, amended (the physical-length invariant). The predicate "`size` is the length of the
file plus the number of buffered bytes" holds of every store `newStore` returns over a file
whose length is the length stat reports; from a state the types allow in which it holds and the
handle writes at the end of the file, it holds again, and the handle is at the end of the file
again, after every `Append` that returns no error, after every `Read` and `ReadAt` and after
`Close` (whether their flush succeeds or not). So, from such a state, the position a successful
`Append` returns is the offset at which its frame, the length field first, lies in the file
after any later flush that succeeds. -/
theorem C17_physical_length (s : store) (hwf : s.WF) (hsize : s.SizeInv)
    (hend : s.file.atEnd) :
    (∀ f t, f.data.length ≤ maxFileSize → f.statSize = f.data.length → newStore f = .ok t →
      t.SizeInv ∧ t.WF) ∧
    (∀ p, (s.Append p).2.2.2 = none →
      (s.Append p).1.SizeInv ∧ (s.Append p).1.WF ∧ (s.Append p).1.file.atEnd) ∧
    (∀ pos, (s.Read pos).1.SizeInv ∧ (s.Read pos).1.WF ∧ (s.Read pos).1.file.atEnd) ∧
    (∀ p off, (s.ReadAt p off).1.SizeInv ∧ (s.ReadAt p off).1.WF ∧
      (s.ReadAt p off).1.file.atEnd) ∧
    (s.Close.1.SizeInv ∧ s.Close.1.WF ∧ s.Close.1.file.atEnd) ∧
    (∀ p ops, (s.Append p).2.2.2 = none →
      ((run (s.Append p).1 ops).buf.Flush (run (s.Append p).1 ops).file).2.2 = none →
      ∃ a c, ((run (s.Append p).1 ops).buf.Flush (run (s.Append p).1 ops).file).2.1.data =
          a ++ (enc.PutUint64 p.length ++ p ++ c) ∧
        a.length = (s.Append p).2.2.1) := by
  have hg : s.Tidy := ⟨hwf, hend, fun _ => hsize⟩
  refine ⟨?_, ?_, ?_, ?_, ?_, ?_⟩
  · intro f t hf hstat ht
    obtain ⟨_, rfl⟩ := newStore_ok ht
    have hmf : maxFileSize = 2 ^ 63 - 1 := rfl
    refine ⟨?_, hf, Nat.zero_le _⟩
    show uint64 f.statSize = f.data.length + ([] : List Byte).length
    rw [hstat, List.length_nil, Nat.add_zero]
    exact uint64_of_lt (by omega)
  · intro p hok
    exact ⟨(store.Append_ok_tidy hg hok).2.1, store.WF_step hwf (Op.append p),
      store.atEnd_step hend (Op.append p)⟩
  · intro pos
    exact ⟨store.SizeInv_of_effect (store.Read_effect s pos) hend hsize,
      store.WF_step hwf (Op.read pos), store.atEnd_step hend (Op.read pos)⟩
  · intro p off
    exact ⟨store.SizeInv_of_effect (store.ReadAt_effect s p off) hend hsize,
      store.WF_step hwf (Op.readAt p off), store.atEnd_step hend (Op.readAt p off)⟩
  · exact ⟨store.SizeInv_of_effect (store.Close_effect s) hend hsize,
      store.WF_step hwf Op.close, store.atEnd_step hend Op.close⟩
  · intro p ops hok hflush
    have h2 := store.Append_ok_tidy hg hok
    have hb := store.Append_ok_bound hwf hend hok
    have hend1 : (s.Append p).1.file.atEnd := (store.Append_spec s p).atEnd hend
    obtain ⟨c, hc⟩ := store.content_run (s.Append p).1 ops hend1
    refine ⟨s.content, c, ?_, h2.2.2.1.symm⟩
    rw [store.flushed_file _ (store.atEnd_run hend1 ops) hflush, ← hc, h2.2.2.2.2.2,
      frame_of_le (by omega)]
    simp

theorem C17_physical_length_witness :
    ((emptyStore.Append hello).1.Append world).1.SizeInv ∧
      ∃ a c, ((run ((emptyStore.Append hello).1.Append world).1 [Op.append []]).buf.Flush
          (run ((emptyStore.Append hello).1.Append world).1 [Op.append []]).file).2.1.data =
          a ++ (enc.PutUint64 world.length ++ world ++ c) ∧
        a.length = ((emptyStore.Append hello).1.Append world).2.2.1 :=
  ⟨((C17_physical_length (emptyStore.Append hello).1 (by decide) (by decide) (by decide)).2.1
      world (by decide)).1,
    (C17_physical_length (emptyStore.Append hello).1 (by decide) (by decide)
      (by decide)).2.2.2.2.2 world [Op.append []] (by decide) (by decide)⟩

/-- C18, as stated, fails. Over the file with the frame of `"hello"`, opened without
`O_APPEND`, `"world"` is appended: the logical content is the two frames, 26 bytes. `Read 0`
flushes without error, and so does `ReadAt`; the flush writes the buffered frame at offset 0,
over the frame that was there: after either call the logical content is the frame of `"world"`
alone, 13 bytes, and the file is not the bytes it held followed by the bytes that were
buffered. -/
theorem C18_counterexample :
    (rewoundStore.Append world).1.content = frame hello ++ frame world ∧
      ((rewoundStore.Append world).1.buf.Flush (rewoundStore.Append world).1.file).2.2 = none ∧
      ((rewoundStore.Append world).1.Read 0).1.content = frame world ∧
      ((rewoundStore.Append world).1.ReadAt [0] 0).1.content = frame world ∧
      ((rewoundStore.Append world).1.Read 0).1.file.data = frame world ∧
      (rewoundStore.Append world).1.file.data ++ (rewoundStore.Append world).1.buf.buf
        = frame hello ++ frame world := by
  decide

/-- C18, amended (reads do not change the record stream). In every store state, for every
position, buffer and offset, `Read` and `ReadAt` leave the size as it is, and where the handle
writes at the end of the file they leave the logical content as it is. When the flush
succeeds, whether the positional read that follows succeeds or not, the state after the call
is the state before it with the buffered bytes written to the file at the write position of
the handle, so moved to the end of the file when the handle is there, and the buffer empty:
same size, same handle, no error in the writer. -/
theorem C18_reads_keep_stream (s : store) (pos : Nat) (p : List Byte) (off : Int) :
    ((s.Read pos).1.size = s.size ∧ (s.ReadAt p off).1.size = s.size) ∧
    (s.file.atEnd →
      (s.Read pos).1.content = s.content ∧ (s.ReadAt p off).1.content = s.content) ∧
    ((s.buf.Flush s.file).2.2 = none →
      ((s.Read pos).1.buf = { err := none, buf := [] } ∧
        (s.Read pos).1.file.data = overwrite s.file.data s.file.writePos s.buf.buf ∧
        (s.file.atEnd → (s.Read pos).1.file.data = s.file.data ++ s.buf.buf) ∧
        (s.Read pos).1.file.closed = s.file.closed ∧
        (s.Read pos).1.file.append = s.file.append ∧
        (s.Read pos).1.file.statErr = s.file.statErr ∧
        (s.Read pos).1.file.closeErr = s.file.closeErr ∧
        (s.Read pos).1.file.statSize = s.file.statSize ∧
        (s.Read pos).1.file.mem = s.file.mem) ∧
      ((s.ReadAt p off).1.buf = { err := none, buf := [] } ∧
        (s.ReadAt p off).1.file.data = overwrite s.file.data s.file.writePos s.buf.buf ∧
        (s.file.atEnd → (s.ReadAt p off).1.file.data = s.file.data ++ s.buf.buf) ∧
        (s.ReadAt p off).1.file.closed = s.file.closed ∧
        (s.ReadAt p off).1.file.append = s.file.append ∧
        (s.ReadAt p off).1.file.statErr = s.file.statErr ∧
        (s.ReadAt p off).1.file.closeErr = s.file.closeErr ∧
        (s.ReadAt p off).1.file.statSize = s.file.statSize ∧
        (s.ReadAt p off).1.file.mem = s.file.mem)) := by
  have hR := store.Read_effect s pos
  have hA := store.ReadAt_effect s p off
  refine ⟨⟨hR.size, hA.size⟩, fun hend => ⟨hR.content hend, hA.content hend⟩,
    fun hfl => ⟨?_, ?_⟩⟩
  · refine ⟨?_, (hR.flushed hfl).2, fun hend => hR.flushed_end hend hfl,
      (store.Read_buf s pos).2, hR.append, hR.statErr, hR.closeErr, hR.statSize, hR.mem⟩
    rw [(store.Read_buf s pos).1]
    exact Writer.flushed_eq _ _ hfl
  · refine ⟨?_, (hA.flushed hfl).2, fun hend => hA.flushed_end hend hfl,
      (store.ReadAt_buf s p off).2, hA.append, hA.statErr, hA.closeErr, hA.statSize, hA.mem⟩
    rw [(store.ReadAt_buf s p off).1]
    exact Writer.flushed_eq _ _ hfl

theorem C18_reads_keep_stream_witness :
    ((emptyStore.Append hello).1.Read 99).1.buf = { err := none, buf := [] } ∧
      ((emptyStore.Append hello).1.Read 99).1.file.data = frame hello ∧
      ((emptyStore.Append hello).1.Read 99).1.content = (emptyStore.Append hello).1.content ∧
      ((emptyStore.Append hello).1.Read 99).1.size = 13 :=
  ⟨((C18_reads_keep_stream (emptyStore.Append hello).1 99 [] 0).2.2 (by decide)).1.1,
    ((C18_reads_keep_stream (emptyStore.Append hello).1 99 [] 0).2.2 (by decide)).1.2.2.1
      (by decide),
    ((C18_reads_keep_stream (emptyStore.Append hello).1 99 [] 0).2.1 (by decide)).1,
    (C18_reads_keep_stream (emptyStore.Append hello).1 99 [] 0).1.1⟩

end Log
